import Mathlib

/-!
# Verification of the factor data-acquisition-and-reconciliation layer

A shallow embedding, in Lean 4, of the core of the
`get-A-shares-stock-informations` repository:

* `src/utils/utils.py` — `ensure_table_exists`, `upsert_to_mysql`
  (the idempotent write path / UpsertGateway);
* `src/utils/table_generator.py` — the `generator` DDL catalog
  (SchemaCatalog);
* `src/factor_lab/base.py` — `FactorBase.fetch_data` (the gap-fill
  orchestrator) and `FactorBase.save_to_db`;
* `src/data_fetchers/base.py` — `FetcherBase.fetch` (query
  classification and response unification);
* `src/pipelines/daily_update.py` — `update_stock_daily`'s
  adjustment-factor reconciliation pass.

External collaborators (the MySQL engine, the tushare provider) are
modelled as explicit environment parameters: the database is a list of
named tables, every table carries the unique key its DDL declared (or
none at all, for tables created by `DataFrame.to_sql`), and provider
responses are supplied by oracle functions in an environment record.
Machine floats are modelled as rationals; `np.isclose` becomes an exact
inequality over `ℚ` with numpy's default tolerances.
-/

namespace StockInfo

/-- A cell value as it travels between pandas and MySQL.  `nan` stands
for the host language's float-NaN missing marker (`np.nan` / `pd.NaT`),
`null` for SQL NULL / Python `None`; `upsert_to_mysql` normalizes the
former into the latter before writing. -/
inductive Value where
  | null : Value
  | nan : Value
  | num : ℚ → Value
  | str : String → Value
deriving DecidableEq, Repr

/-- `pd.isna`-style test: both missing-value markers count as NA. -/
def Value.isNA : Value → Bool
  | .null => true
  | .nan => true
  | _ => false

/-- The NaN→NULL normalization applied by
`df.astype(object).where(pd.notnull(df), None)` (utils.py line 91). -/
def Value.clean : Value → Value
  | .nan => .null
  | v => v

/-- A row as handed to the SQL driver: an association list from column
name to value (the source's `df.to_dict(orient='records')`). -/
abbrev Row := List (String × Value)

/-- First binding of column `c` in row `r` (pandas/dict column lookup). -/
def getCol (r : Row) (c : String) : Option Value :=
  (r.find? (fun p => p.1 = c)).map (·.2)

/-- Names of a row's columns, in order. -/
def rowCols (r : Row) : List String := r.map (·.1)

/-- The projection of a row onto a key column list: what MySQL's unique
index sees when it checks `ON DUPLICATE KEY`. -/
def rowKey (ks : List String) (r : Row) : List (Option Value) :=
  ks.map (getCol r)

/-!
## The `INSERT … ON DUPLICATE KEY UPDATE` write

`upsert_to_mysql` builds one statement

    INSERT INTO tbl (cols…) VALUES (:col…)
    ON DUPLICATE KEY UPDATE c₁=VALUES(c₁), …

with an update clause for every dataframe column *not* in the caller's
`primary_key` argument, and executes it once per record. MySQL detects a
duplicate through the *table's* unique index (`ks` below), which need
not coincide with the caller-declared `pkArg`; on a duplicate it
overwrites exactly the columns of the update clause with the incoming
row's values and leaves every other stored column alone.
-/

/-- Effect of `ON DUPLICATE KEY UPDATE` on one stored cell `p` hit by
incoming row `r`: a stored column that appears in `r` and is not in the
caller's `primary_key` list takes `r`'s value; any other stored column
keeps its value. -/
def overwriteCell (pkArg : List String) (r : Row) (p : String × Value) :
    String × Value :=
  if p.1 ∈ pkArg then p
  else match getCol r p.1 with
    | some v => (p.1, v)
    | none => p

/-- Effect of `ON DUPLICATE KEY UPDATE` on a whole stored row. -/
def overwrite (pkArg : List String) (s r : Row) : Row :=
  s.map (overwriteCell pkArg r)

/-- One record of the batch: if the table's unique index `ks` finds a
stored row with the same key, update it in place; otherwise append the
record as a fresh row. -/
def upsertRow (ks pkArg : List String) (t : List Row) (r : Row) : List Row :=
  if t.any (fun s => rowKey ks s = rowKey ks r) then
    t.map (fun s => if rowKey ks s = rowKey ks r then overwrite pkArg s r else s)
  else t ++ [r]

/-- The whole batch, executed sequentially inside one transaction. -/
def applyRows (ks pkArg : List String) (t : List Row) (rs : List Row) : List Row :=
  rs.foldl (upsertRow ks pkArg) t

/-- A table created without any unique index (as `DataFrame.to_sql`
does) never reports a duplicate: every record is plainly appended. -/
def insertRows (key : Option (List String)) (pkArg : List String)
    (t : List Row) (rs : List Row) : List Row :=
  match key with
  | none => t ++ rs
  | some ks => applyRows ks pkArg t rs

/-- `r` carries a value that the update clause would write into column
`c`: the column appears in `r` and is not a caller-declared key. -/
def writes (pkArg : List String) (r : Row) (c : String) : Prop :=
  (getCol r c).isSome ∧ c ∉ pkArg

/-- Some row of `t` has key `k` (under unique index `ks`). -/
def hasKey (ks : List String) (t : List Row) (k : List (Option Value)) : Prop :=
  ∃ s ∈ t, rowKey ks s = k

/-!
## Convergence of batches applied to almost-identical tables

Two tables that share their shape (row count, per-row column names and
keys) and differ only in cells that some still-pending record will
write end up identical after the pending batch runs.  This is the
engine behind idempotence: the second pass starts from a table that
differs from the first pass's intermediate states only in cells the
remaining records overwrite anyway.
-/

/-- Rows `u` and `v` agree on shape and key, and any value difference
sits in a column that some record of `rs` (with the matching key) will
overwrite. -/
def RowRel (ks pkArg : List String) (rs : List Row) (u v : Row) : Prop :=
  rowCols u = rowCols v ∧ rowKey ks u = rowKey ks v ∧
  ∀ (j : Nat) (p q : String × Value), u[j]? = some p → v[j]? = some q →
    p.2 ≠ q.2 → ∃ r ∈ rs, rowKey ks r = rowKey ks u ∧ writes pkArg r p.1

/-- Position-wise lifting of `RowRel` to whole tables. -/
def TableRel (ks pkArg : List String) (rs : List Row) (U V : List Row) : Prop :=
  U.length = V.length ∧ ∀ (i : Nat) (u v : Row), U[i]? = some u →
    V[i]? = some v → RowRel ks pkArg rs u v

/-!
## The database layer: `ensure_table_exists` and `upsert_to_mysql`

A MySQL table is its unique index (if any) plus its rows; the database
maps table names to tables.  A table created through the catalog's DDL
carries that DDL's declared primary key; a table created through the
`DataFrame.to_sql` fallback carries no unique index at all (pandas
emits no PRIMARY KEY clause), which is what makes `ON DUPLICATE KEY
UPDATE` silently degrade to plain appends there.
-/

/-- A stored table: the unique index declared by its DDL (none for
`to_sql`-created tables) and its rows. -/
structure Table where
  key : Option (List String)
  rows : List Row
deriving DecidableEq

/-- The relational store: a mapping from table name to table. -/
def DB := String → Option Table

def DB.hasTable (db : DB) (n : String) : Bool := (db n).isSome

def DB.setTable (db : DB) (n : String) (tbl : Table) : DB :=
  fun m => if m = n then some tbl else db m

/-- The empty store. -/
def DB.empty : DB := fun _ => none

/-- A pandas DataFrame: named columns and positional value rows. -/
structure DFrame where
  cols : List String
  rows : List (List Value)
deriving DecidableEq

/-- `df.empty`: true when either axis has length zero. -/
def DFrame.isEmpty (df : DFrame) : Bool :=
  df.rows.isEmpty || df.cols.isEmpty

/-- `df.to_dict(orient='records')`: one name-keyed record per row. -/
def DFrame.records (df : DFrame) : List Row :=
  df.rows.map (fun vs => df.cols.zip vs)

/-- One record after the NaN→NULL normalization of utils.py line 91. -/
def cleanRow (r : Row) : Row := r.map (fun p => (p.1, p.2.clean))

/-- The records of the normalized frame
`df.astype(object).where(pd.notnull(df), None)`. -/
def cleanRecords (df : DFrame) : List Row := df.records.map cleanRow

/-- The `generator` catalog of `table_generator.py`, reduced to its
semantic content: for each known table name, the unique (primary) key
its `CREATE TABLE` statement declares. -/
def generatorKeys : List (String × List String) :=
  [("stock_basic_info", ["ts_code"]),
   ("index_basic_info", ["ts_code"]),
   ("stock_daily", ["ts_code", "trade_date"]),
   ("index_daily", ["ts_code", "trade_date"]),
   ("factor_metadata", ["factor_name"]),
   ("factor_panel_data", ["ts_code", "trade_date", "factor_name"]),
   ("factor_panel_data_without_foreign_key",
      ["ts_code", "trade_date", "factor_name"])]

/-- `table_name in generator.keys()` plus the key the DDL declares. -/
def generatorLookup (name : String) : Option (List String) :=
  (generatorKeys.find? (fun p => p.1 = name)).map (·.2)

/-- Behavior of the external SQL engine for one call, supplied as an
oracle: whether DDL executions succeed, the semantics of a
caller-supplied CREATE statement, and where (if anywhere) the
transactional INSERT raises. -/
structure SqlEnv where
  /-- executing a catalog CREATE statement succeeds -/
  createOk : Bool
  /-- `df.to_sql` succeeds -/
  toSqlOk : Bool
  /-- executing a caller-supplied CREATE statement: `none` = raises,
  `some k` = creates a table whose unique index is `k` -/
  customDDL : String → Option (Option (List String))
  /-- the transactional write raises after this many records (a value
  `≥` the batch size, or `none`, means the whole transaction commits) -/
  failAt : Option Nat

/-- `ensure_table_exists` (utils.py lines 13–60): returns the store
after any creation side effect, and the function's boolean result. -/
def ensureTableExists (env : SqlEnv) (db : DB) (tableName createSql : String)
    (df : DFrame) : DB × Bool :=
  if db.hasTable tableName then (db, true)
  else if createSql = "" ∨ createSql = "auto" ∨ createSql = "akaza akari" then
    match generatorLookup tableName with
    | some ks =>
      if env.createOk then (db.setTable tableName ⟨some ks, []⟩, true)
      else (db, false)
    | none =>
      if df.isEmpty then (db, false)
      else if env.toSqlOk then
        -- df.to_sql: creates the table WITHOUT a unique index and
        -- immediately inserts the frame's rows, then returns True.
        (db.setTable tableName ⟨none, cleanRecords df⟩, true)
      else (db, false)
  else if (createSql.take 11).toLower = "use default" then
    match generatorLookup ((createSql.toLower.replace "use default" "").replace " " "") with
    | some ks =>
      if env.createOk then (db.setTable tableName ⟨some ks, []⟩, true)
      else (db, false)
    | none => (db, false)
  else
    match env.customDDL createSql with
    | some k => (db.setTable tableName ⟨k, []⟩, true)
    | none => (db, false)

/-- The transactional `INSERT … ON DUPLICATE KEY UPDATE` over one
table: `none` models an exception inside the transaction — the
`with conn.begin()` block rolls everything back, so no row survives.
MySQL also rejects a statement listing one column twice. -/
def mysqlWrite (env : SqlEnv) (tbl : Table) (pkArg : List String)
    (records : List Row) (cols : List String) : Option Table :=
  if ¬ cols.Nodup then none
  else match env.failAt with
    | some n =>
      if n < records.length then none
      else some ⟨tbl.key, insertRows tbl.key pkArg tbl.rows records⟩
    | none => some ⟨tbl.key, insertRows tbl.key pkArg tbl.rows records⟩

/-- The body of the `try:` block of `upsert_to_mysql` (utils.py lines
113–122), starting after `ensure_table_exists` ran: either the whole
batch commits, or an exception value is produced. -/
def upsertTryBody (env : SqlEnv) (db1 : DB) (ok : Bool) (tableName : String)
    (records : List Row) (cols pkArg : List String) : Except String DB :=
  match ok with
  | false => .error "ProgrammingError: no existing table and creation failed"
  | true =>
    match db1 tableName with
    | none => .error "ProgrammingError: no existing table and creation failed"
    | some tbl =>
      match mysqlWrite env tbl pkArg records cols with
      | none => .error "database error during transactional write"
      | some tbl' => .ok (db1.setTable tableName tbl')

/-- `upsert_to_mysql` (utils.py lines 62–124).  The surrounding
`try/except` catches any exception from the transactional write and
merely logs it, so the caller always gets a store back — with the
creation side effects of `ensure_table_exists` but without any partial
batch. -/
def upsertToMysql (env : SqlEnv) (db : DB) (tableName : String) (df : DFrame)
    (pkArg : List String) (createSql : String) : DB :=
  if df.isEmpty then db
  else
    let st := ensureTableExists env db tableName createSql df
    match upsertTryBody env st.1 st.2 tableName (cleanRecords df) df.cols pkArg with
    | .ok db2 => db2
    | .error _ => st.1

/-- An environment in which every DDL and every transactional write
succeeds, and no caller-supplied CREATE statement is recognized. -/
def envPlain : SqlEnv := ⟨true, true, fun _ => none, none⟩

/-- A one-row frame over a table name the catalog does not know. -/
def dfSample : DFrame := ⟨["ts_code", "v"], [[Value.str "A", Value.num 1]]⟩

/-!
## `FactorBase.fetch_data`: the requested-field normalization

`fetch_data` (factor_lab/base.py lines 260–275) computes the set of
canonical field names to look up in the long store.  Python's `set` is
modelled as an insertion-ordered duplicate-free list; only membership
matters to the claims.
-/

/-- One entry of the `queries` list handed to `fetch_data`/`FetcherBase`. -/
structure FLQuery where
  api : String
  fields : Option String
  adj : Option String
deriving DecidableEq

/-- The adjustable subset used by `fetch_data` (line 265). -/
def adjTargets : List String :=
  ["open", "high", "low", "close", "change", "pre_close"]

/-- The subset suffixed even without an adjustment mode (line 268). -/
def noAdjTargets : List String := ["change", "pre_close"]

def sInsert (l : List String) (x : String) : List String :=
  if x ∈ l then l else l ++ [x]

def sUpdate (l : List String) (xs : List String) : List String :=
  xs.foldl sInsert l

def sRemove (l : List String) (x : String) : List String :=
  l.filter (fun y => y ≠ x)

/-- `[f.strip() for f in query['fields'].split(',')]`. -/
def fieldsList (q : FLQuery) : List String :=
  ((q.fields.getD "").splitOn ",").map (·.trim)

/-- The per-field renaming applied while collecting needed fields
(factor_lab/base.py lines 263–269): with an adjustment mode, the
six-element adjustable subset gets the mode suffix; without one,
`change` and `pre_close` still get a hard-coded `_qfq` suffix. -/
def queryMapped (q : FLQuery) (f : String) : String :=
  if q.adj = some "qfq" ∨ q.adj = some "hfq" then
    (if f ∈ adjTargets then f ++ ("_" ++ (q.adj.getD "")) else f)
  else
    (if f ∈ noAdjTargets then f ++ "_qfq" else f)

/-- Mid-loop fixup (lines 270–272): a collected `change_qfq` is
replaced by `price_change_qfq`. -/
def fixupQfq (l : List String) : List String :=
  if "change_qfq" ∈ l then
    sInsert (sRemove l "change_qfq") "price_change_qfq"
  else l

/-- Mid-loop fixup (lines 273–275): a collected `change_hfq` is
replaced by `price_change_hfq`. -/
def fixupHfq (l : List String) : List String :=
  if "change_hfq" ∈ l then
    sInsert (sRemove l "change_hfq") "price_change_hfq"
  else l

/-- Processing of one query inside the field-collection loop
(factor_lab/base.py lines 261–275). -/
def processQueryFields (acc : List String) (q : FLQuery) : List String :=
  fixupHfq (fixupQfq (sUpdate acc ((fieldsList q).map (queryMapped q))))

/-- `all_fields_needed` as accumulated over the whole query list. -/
def allFieldsNeeded (queries : List FLQuery) : List String :=
  queries.foldl processQueryFields []

/-- A concrete unadjusted query asking for `change` and `pre_close`. -/
def c9Query : FLQuery := ⟨"daily", some "close,change,pre_close", none⟩

/-!
## `FactorBase.save_to_db` (factor_lab/base.py lines 60–117)
-/

/-- The wide frame `calculate()` returns: trade dates as the row index,
ts_codes as columns, factor values as cells. -/
structure FWide where
  dates : List String
  codes : List String
  cells : List (List Value)
deriving DecidableEq

/-- `wide_df.empty`: an axis of length zero. -/
def FWide.isEmpty (w : FWide) : Bool := w.dates.isEmpty || w.codes.isEmpty

/-- One row of the narrow factor table. -/
structure NarrowFactorRow where
  ts_code : String
  trade_date : String
  factor_name : String
  factor_value : Value
deriving DecidableEq

/-- `wide_df.stack()`: enumerate `(date, code, value)` cells, dropping
missing cells as pandas `stack` does. -/
def stackWide (w : FWide) : List (String × String × Value) :=
  ((w.dates.zip w.cells).map (fun dv =>
    ((w.codes.zip dv.2).filter (fun p => !p.2.isNA)).map
      (fun p => (dv.1, p.1, p.2)))).flatten

/-- `to_narrow_format`: stack, label the columns
`[ts_code, trade_date, factor_name, factor_value]`. -/
def toNarrowFormat (fname : String) (w : FWide) : List NarrowFactorRow :=
  (stackWide w).map (fun c => ⟨c.2.1, c.1, fname, c.2.2⟩)

/-- `save_to_db`: the frame handed to `upsert_to_mysql` (with primary
key `[ts_code, trade_date, factor_name]`), or `none` when the method
skips the write. -/
def saveToDb (fname : String) (w : FWide) : Option (List NarrowFactorRow) :=
  if w.isEmpty then none
  else
    let cleaned := (toNarrowFormat fname w).filter
      (fun r => !r.factor_value.isNA)
    if cleaned.isEmpty then none
    else some cleaned

/-- A wide computation result with one valid and one missing cell. -/
def wSample : FWide := ⟨["20240101"], ["A", "B"], [[Value.num 1, Value.null]]⟩

/-!
## `FactorBase.fetch_data` (factor_lab/base.py lines 234–361): gap fill
-/

/-- One record of the canonical long table `extra_data`. -/
structure NarrowRec where
  ts_code : String
  trade_date : String
  data_name : String
  data_value : Value
deriving DecidableEq

/-- Insertion-ordered deduplication (models iterating a Python set
built from a list; only membership matters to the claims). -/
def dedupAppend {α : Type} [DecidableEq α] (l : List α) : List α :=
  l.foldl (fun acc x => if x ∈ acc then acc else acc ++ [x]) []

/-- The pivoted wide view of a set of long records, keyed by
`(trade_date, ts_code)` with one column per `data_name`
(`pivot_table(..., aggfunc='first')`).  pandas sorts the pivot index;
the claims are membership-only, so index order is kept as first
appearance. -/
structure WideFrame where
  keyRows : List ((String × String) × List (String × Value))
deriving DecidableEq

def WideFrame.isEmpty (w : WideFrame) : Bool := w.keyRows.isEmpty

/-- The ts_codes appearing in the wide index. -/
def WideFrame.codes (w : WideFrame) : List String :=
  w.keyRows.map (fun kr => kr.1.2)

def pivotCell (rs : List NarrowRec) (k : String × String) (f : String) :
    Option Value :=
  (rs.find? (fun r =>
    r.trade_date = k.1 ∧ r.ts_code = k.2 ∧ r.data_name = f)).map
    (·.data_value)

def pivotWide (rs : List NarrowRec) : WideFrame :=
  let keys := dedupAppend (rs.map (fun r => (r.trade_date, r.ts_code)))
  let fields := dedupAppend (rs.map (·.data_name))
  ⟨keys.map (fun k =>
    (k, fields.filterMap (fun f => (pivotCell rs k f).map (fun v => (f, v)))))⟩

/-- The environment `fetch_data` runs in: what the `extra_data` query
returns (`none` = the query raised, caught at line 298), and what
`FetcherBase(...).fetch()` would return if invoked (`none` = an
exception inside `fetch` that its `@logger.catch` decorator swallowed,
making the call return the Python value `None`). -/
structure GapEnv where
  dbQuery : Option (List NarrowRec)
  fetchResult : Option (List NarrowRec)

/-- What a `fetch_data` run did: the symbol lists it fetched online,
and its outcome (`Except.error` = an uncaught exception escaping to the
caller). -/
structure FetchDataOut where
  calls : List (List String)
  result : Except String WideFrame

/-- `df_from_db` as `fetch_data` builds it: the pivoted store result,
or an empty frame when the query raised (caught at line 298) or
returned no rows. -/
def dbWide (env : GapEnv) : WideFrame :=
  match env.dbQuery with
  | none => ⟨[]⟩
  | some rs => if rs.isEmpty then ⟨[]⟩ else pivotWide rs

/-- `FactorBase.fetch_data`, one run. -/
def fetchData (env : GapEnv) (queries : List FLQuery)
    (ts_codes : List String) : FetchDataOut :=
  -- line 262 `query['fields']` raises before anything else if absent
  if queries.any (fun q => q.fields.isNone) then
    { calls := [], result := .error "KeyError: fields" }
  else
    let dfFromDb : WideFrame := dbWide env
    let found := dfFromDb.codes
    let missing := (dedupAppend ts_codes).filter (fun c => c ∉ found)
    if missing.isEmpty then
      { calls := [],
        result := .ok (if dfFromDb.isEmpty then ⟨[]⟩ else dfFromDb) }
    else
      match env.fetchResult with
      | none =>
        -- fetch() returned None; `df_online_narrow.empty` raises
        { calls := [missing],
          result := .error "AttributeError: NoneType has no attribute empty" }
      | some onlineRs =>
        if onlineRs.isEmpty then
          { calls := [missing],
            result := .ok (if dfFromDb.isEmpty then ⟨[]⟩ else dfFromDb) }
        else
          -- upsert into extra_data, then pd.concat of both wide frames
          let merged : WideFrame :=
            ⟨dfFromDb.keyRows ++ (pivotWide onlineRs).keyRows⟩
          { calls := [missing],
            result := .ok (if merged.isEmpty then ⟨[]⟩ else merged) }

/-- The requested symbols with zero presence in the store query
result — the claim's characterization of what must be fetched online. -/
def zeroPresence (env : GapEnv) (codes : List String) : List String :=
  (dedupAppend codes).filter
    (fun c => !((env.dbQuery.getD []).any (fun r => r.ts_code = c)))

/-- A store holding data for `A` and `B` and an online provider that
returns data for `C`: the spec's gap-fill scenario. -/
def gapEnvSample : GapEnv :=
  ⟨some [⟨"A", "20240101", "close", .num 10⟩,
         ⟨"B", "20240101", "close", .num 20⟩],
   some [⟨"C", "20240101", "close", .num 30⟩]⟩

/-- The store query raising and the online fetcher failing internally:
`extra_data` is unreachable and `FetcherBase.fetch` returns `None`. -/
def gapEnvDown : GapEnv := ⟨none, none⟩

/-!
## `update_stock_daily`, part 2 (pipelines/daily_update.py lines
72–187): adjustment-factor drift detection and full-history refresh
-/

/-- Strict lexicographic order on character lists (by code point):
the order pandas/SQL comparisons induce on uniform `YYYYMMDD` date
strings. -/
def charLt : List Char → List Char → Bool
  | [], [] => false
  | [], _ :: _ => true
  | _ :: _, [] => false
  | c :: cs, d :: ds =>
    if c.toNat < d.toNat then true
    else if d.toNat < c.toNat then false
    else charLt cs ds

def dateLt (a b : String) : Bool := charLt a.data b.data

def dateLe (a b : String) : Bool := !(dateLt b a)

/-- The environment the reconciliation pass runs in: the wide price
table's `(ts_code, trade_date, adj_factor)` projection, today's date,
the 90-day cutoff (dates as `YYYYMMDD` strings, ordered
lexicographically = chronologically), and the provider's `adj_factor`
endpoint per trade date (`none` = that date's fetch raised and was
caught at line 128). -/
structure ReconEnv where
  storeRows : List (String × String × Option ℚ)
  today : String
  cutoff : String
  adjFactorFetch : String → Option (List (String × ℚ))

/-- Stored trade dates of one symbol. -/
def datesOf (rows : List (String × String × Option ℚ)) (code : String) :
    List String :=
  (rows.filter (fun r => r.1 = code)).map (fun r => r.2.1)

def minD (l : List String) : String :=
  l.foldl (fun a b => if dateLt b a then b else a) (l.headD "")

def maxD (l : List String) : String :=
  l.foldl (fun a b => if dateLt a b then b else a) (l.headD "")

/-- `SELECT ts_code, MIN(trade_date), MAX(trade_date) GROUP BY ts_code`. -/
def groupDates (rows : List (String × String × Option ℚ)) :
    List (String × String × String) :=
  (dedupAppend (rows.map (·.1))).map
    (fun c => (c, minD (datesOf rows c), maxD (datesOf rows c)))

/-- Symbols whose latest stored date is within the trailing window. -/
def activeStocks (env : ReconEnv) : List (String × String × String) :=
  (groupDates env.storeRows).filter (fun g => dateLe env.cutoff g.2.2)

/-- The factor stored in the table at `(code, latest)` (the chunked
`(ts_code, trade_date) IN (...)` query; the column is nullable). -/
def dbFactor (env : ReconEnv) (code latest : String) : Option ℚ :=
  match env.storeRows.find? (fun r => r.1 = code ∧ r.2.1 = latest) with
  | some r => r.2.2
  | none => none

/-- The provider's current factor for `(code, latest)`: present only
when that date's fetch succeeded and returned a row for the symbol. -/
def tsFactor (env : ReconEnv) (code latest : String) : Option ℚ :=
  match env.adjFactorFetch latest with
  | none => none
  | some rows => (rows.find? (fun p => p.1 = code)).map (·.2)

/-- `np.isclose` with its default tolerances
(`|a-b| ≤ atol + rtol*|b|`, `atol = 1e-8`, `rtol = 1e-5`), exact over
`ℚ`: denominators are positive, so the inequality is equivalent to the
integer comparison below after multiplying both sides by
`a.den * b.den * (b.den * 10^8)` (see `isClose_iff`). -/
def isClose (a b : ℚ) : Bool :=
  ((a.num * (b.den : Int) - b.num * (a.den : Int)).natAbs : Int) *
      ((b.den : Int) * 100000000) ≤
    ((b.den : Int) + (b.num.natAbs : Int) * 1000) *
      ((a.den : Int) * (b.den : Int))

/-- `qfq_changed_ts_codes`: active symbols whose stored and fresh
factors both exist (inner join + dropna) and disagree beyond
tolerance. -/
def qfqChanged (env : ReconEnv) : List String :=
  ((activeStocks env).filter (fun g =>
    match dbFactor env g.1 g.2.2, tsFactor env g.1 g.2.2 with
    | some a, some b => !isClose a b
    | _, _ => false)).map (·.1)

/-- One `pro.pro_bar` invocation issued by the refresh loop. -/
structure ProBarCall where
  ts_code : String
  start_date : String
  end_date : String
  adj : String
  fields : List String
deriving DecidableEq

/-- The field list of the corrective refetch (line 172). -/
def qfqFields : List String :=
  ["ts_code", "trade_date", "open", "high", "low", "close", "change",
   "pre_close"]

/-- `stock_dates_dict[ts_code]['oldest_date']`. -/
def oldestOf (env : ReconEnv) (code : String) : String :=
  (((activeStocks env).find? (fun g => g.1 = code)).map
    (fun g => g.2.1)).getD ""

/-- The fetches issued for drifted symbols (lines 168–172): each covers
the symbol's whole stored range, oldest date to today, forward
adjusted. -/
def refreshCalls (env : ReconEnv) : List ProBarCall :=
  (qfqChanged env).map
    (fun code => ⟨code, oldestOf env code, env.today, "qfq", qfqFields⟩)

/-- The column renaming applied before the corrective upsert
(lines 179–181). -/
def qfqRenameMap : List (String × String) :=
  [("open", "open_qfq"), ("high", "high_qfq"), ("low", "low_qfq"),
   ("close", "close_qfq"), ("pre_close", "pre_close_qfq"),
   ("change", "price_change_qfq")]

def renameQfqCol (c : String) : String :=
  ((qfqRenameMap.find? (fun p => p.1 = c)).map (·.2)).getD c

/-- The primary key of the corrective upsert (line 184). -/
def refreshPrimaryKey : List String := ["ts_code", "trade_date"]

/-- A store with one active symbol `X` whose stored factor `1` differs
from the provider's fresh `21/20` beyond tolerance. -/
def reconEnvSample : ReconEnv :=
  ⟨[("X", "20240101", some 1), ("X", "20240110", some 1)],
   "20240115", "20231001",
   fun d =>
     if d = "20240110" then
       some [("X", Rat.mk' 21 20 (by decide) (by decide))]
     else none⟩

/-!
### `FetcherBase.fetch` (src/data_fetchers/base.py, lines 74–163)

The online fetcher takes a batch of endpoint queries, routes each one
to the extra-info phase, the periodic-report ("ann") phase or the daily
time-series phase, and melts everything into canonical long records.
Claims C7 and C8 live here.
-/

/-- One entry of `self.queries`: the endpoint name, the optional
comma-separated `fields` string, and the optional adjustment mode. -/
structure FQuery where
  api : String
  fields : Option String
  adj : Option String
deriving DecidableEq, Repr

/-- A raw provider dataframe: named columns with positionally aligned
value rows. -/
structure FFrame where
  cols : List String
  rows : List (List Value)
deriving DecidableEq, Repr

/-- One melted canonical record
`(ts_code, trade_date, data_name, data_value)`. -/
abbrev LongRow := Value × Value × String × Value

/-- The environment `fetch` runs against.  The extra and ann phases
(lines 77–129) matter to the claims only through their success or
failure, so they are oracles over the classified query lists; the
daily branch (lines 131–157), which the claims are about, is built
structurally from `dailyResp`, the provider frame for one
`(ts_code, query)` pair. -/
structure FetchEnv where
  codes : List String
  queries : List FQuery
  extraRows : List FQuery → Except String (List LongRow)
  annRows : List FQuery → Except String (Option (List LongRow))
  dailyResp : String → FQuery → FFrame

/-- `pat` occurs at the head of the second list, character-wise. -/
def matchHere : List Char → List Char → Bool
  | [], _ => true
  | _ :: _, [] => false
  | a :: as, b :: bs => a == b && matchHere as bs

/-- `pat` occurs somewhere in the second list. -/
def matchSomewhere (pat : List Char) : List Char → Bool
  | [] => matchHere pat []
  | c :: cs => matchHere pat (c :: cs) || matchSomewhere pat cs

/-- Python's substring test `pat in s`. -/
def strContains (s pat : String) : Bool := matchSomewhere pat.data s.data

/-- Line 82: the date-less endpoints handled by `extra_info_fetch`. -/
def isExtraApi (q : FQuery) : Bool :=
  q.api == "stock_basic" || q.api == "stock_company"

/-- Line 86: a query is routed to `ann_fetch` iff the literal substring
`end_date` occurs in its `fields` string. -/
def isAnnQuery (q : FQuery) : Bool :=
  match q.fields with
  | some fs => strContains fs "end_date"
  | none => false

/-- The queries collected into `extra_list` (lines 82–84). -/
def extraQs (env : FetchEnv) : List FQuery :=
  env.queries.filter (fun q => isExtraApi q)

/-- The queries collected into `ann_list` (lines 86–88). -/
def annQs (env : FetchEnv) : List FQuery :=
  env.queries.filter (fun q => !isExtraApi q && isAnnQuery q)

/-- `remaining_queries` (line 91): whatever is not routed to the extra
or ann phases is treated as a daily time-series query. -/
def dailyQs (env : FetchEnv) : List FQuery :=
  env.queries.filter (fun q => !isExtraApi q && !isAnnQuery q)

/-- `df.loc[:, ~df.columns.duplicated()]` (line 141) viewed on one
record: keep the first occurrence of each column name. -/
def dedupRowAux (seen : List String) : Row → Row
  | [] => []
  | (c, v) :: rest =>
    if seen.contains c then dedupRowAux seen rest
    else (c, v) :: dedupRowAux (c :: seen) rest

/-- The records of a provider frame after column deduplication. -/
def frameRecords (f : FFrame) : List Row :=
  f.rows.map (fun r => dedupRowAux [] (f.cols.zip r))

/-- Line 145: the column set targeted by the adjustment rename.  Note
that it contains `pct_chg`. -/
def targetColsAdj : List String :=
  ["open", "high", "low", "close", "change", "pct_chg", "pre_close"]

/-- `rename_map` of lines 146–147, on a single column name. -/
def renameColAdj (a c : String) : String :=
  if c ∈ targetColsAdj then c ++ "_" ++ a else c

/-- Line 144: the rename fires only when the query carries
`adj ∈ {qfq, hfq}`. -/
def adjSuffix (q : FQuery) : Option String :=
  match q.adj with
  | some a => if a == "qfq" || a == "hfq" then some a else none
  | none => none

/-- The name a daily data column ends up with in the melted output. -/
def applyAdj (q : FQuery) (c : String) : String :=
  match adjSuffix q with
  | some a => renameColAdj a c
  | none => c

/-- `pd.melt` of one record (lines 151–157): the two index columns
become `id_vars`, every remaining column yields one long row under its
(possibly adjustment-renamed) name. -/
def meltRec (q : FQuery) (rec : Row) : List LongRow :=
  (rec.filter (fun p => p.1 != "ts_code" && p.1 != "trade_date")).map
    (fun p => ((getCol rec "ts_code").getD Value.null,
      (getCol rec "trade_date").getD Value.null, applyAdj q p.1, p.2))

/-- One `(ts_code, query)` step of the daily loop (lines 136–148):
fetch, deduplicate columns, `set_index(['ts_code', 'trade_date'])` —
which raises `KeyError` when either column is absent from the provider
frame — then the adjustment rename, and the melt the frame contributes
to lines 150–157. -/
def dailyLongFor (env : FetchEnv) (code : String) (q : FQuery) :
    Except String (List LongRow) :=
  if "ts_code" ∈ dedupAppend (env.dailyResp code q).cols ∧
      "trade_date" ∈ dedupAppend (env.dailyResp code q).cols then
    .ok (((frameRecords (env.dailyResp code q)).map (meltRec q)).flatten)
  else
    .error "KeyError"

/-- The inner `for query in self.queries` loop for one symbol
(lines 135–148); the first exception aborts the whole fetch. -/
def dailyInner (env : FetchEnv) (code : String) :
    List FQuery → Except String (List LongRow)
  | [] => .ok []
  | q :: rest =>
    match dailyLongFor env code q with
    | .error e => .error e
    | .ok rs =>
      match dailyInner env code rest with
      | .error e => .error e
      | .ok rest2 => .ok (rs ++ rest2)

/-- The outer `for ts_code in self.ts_codes` loop (lines 133–149). -/
def dailyOuter (env : FetchEnv) (qs : List FQuery) :
    List String → Except String (List LongRow)
  | [] => .ok []
  | code :: rest =>
    match dailyInner env code qs with
    | .error e => .error e
    | .ok rs =>
      match dailyOuter env qs rest with
      | .error e => .error e
      | .ok rest2 => .ok (rs ++ rest2)

/-- Lines 131–160: `daily_long` is `None` when no query is left for
the daily branch; with daily queries but no symbols, the `pd.concat`
of an empty `daily_list` raises. -/
def dailyPhase (env : FetchEnv) : Except String (Option (List LongRow)) :=
  if (dailyQs env).isEmpty then .ok none
  else if env.codes.isEmpty then
    .error "ValueError: no objects to concatenate"
  else
    match dailyOuter env (dailyQs env) env.codes with
    | .error e => .error e
    | .ok rs => .ok (some rs)

/-- Lines 94–107 as an oracle call: `extra_long` is `None` iff there
are no extra queries; otherwise the phase's outcome (including any
provider or reshaping exception) comes from the environment. -/
def extraPhase (env : FetchEnv) : Except String (Option (List LongRow)) :=
  if (extraQs env).isEmpty then .ok none
  else
    match env.extraRows (extraQs env) with
    | .error e => .error e
    | .ok rs => .ok (some rs)

/-- Lines 110–129 as an oracle call: the inner `Option` is `none`
when `ann` came back empty and no long rows are produced. -/
def annPhase (env : FetchEnv) : Except String (Option (List LongRow)) :=
  if (annQs env).isEmpty then .ok none
  else env.annRows (annQs env)

/-- `pd.concat([ann_long, daily_long, extra_long])` (line 162): raises
when all three parts are `None`. -/
def concatLong :
    Option (List LongRow) → Option (List LongRow) →
      Option (List LongRow) → Except String (List LongRow)
  | none, none, none => .error "ValueError: no objects to concatenate"
  | a, d, e => .ok (a.getD [] ++ d.getD [] ++ e.getD [])

/-- The body of `FetcherBase.fetch` (lines 75–163). -/
def fetchE (env : FetchEnv) : Except String (List LongRow) :=
  match extraPhase env with
  | .error e => .error e
  | .ok eRows =>
    match annPhase env with
    | .error e => .error e
    | .ok aRows =>
      match dailyPhase env with
      | .error e => .error e
      | .ok dRows => concatLong aRows dRows eRows

/-- `fetch` as its callers see it: the `@logger.catch` decorator
(line 74) swallows any exception and makes the call return `None`. -/
def fetcherFetch (env : FetchEnv) : Option (List LongRow) :=
  (fetchE env).toOption

/-- A well-formed daily query. -/
def c7GoodQuery : FQuery := ⟨"daily_basic", some "close", none⟩

/-- A periodic-report query whose `fields` list omits `end_date` —
the spec's footgun scenario. -/
def c7BadQuery : FQuery := ⟨"income", some "revenue", none⟩

def c7GoodFrame : FFrame :=
  ⟨["ts_code", "trade_date", "close"],
    [[Value.str "A", Value.str "20240101", Value.num 10]]⟩

/-- The provider's answer to the misrouted `income` query: a periodic
endpoint returns report-period columns, never `trade_date`. -/
def c7BadFrame : FFrame :=
  ⟨["ts_code", "revenue"], [[Value.str "A", Value.num 5]]⟩

/-- A batch holding one good daily endpoint and the footgun query. -/
def c7Env : FetchEnv :=
  ⟨["A"], [c7GoodQuery, c7BadQuery], fun _ => .ok [], fun _ => .ok none,
    fun _ q => if q.api == "income" then c7BadFrame else c7GoodFrame⟩

/-- The same batch without the footgun query. -/
def c7EnvGood : FetchEnv :=
  ⟨["A"], [c7GoodQuery], fun _ => .ok [], fun _ => .ok none,
    fun _ _ => c7GoodFrame⟩

/-- A forward-adjusted daily query requesting only `pct_chg`. -/
def c8Query : FQuery := ⟨"pro_bar", some "pct_chg", some "qfq"⟩

def c8Env : FetchEnv :=
  ⟨["A"], [c8Query], fun _ => .ok [], fun _ => .ok none,
    fun _ _ => ⟨["ts_code", "trade_date", "pct_chg"],
      [[Value.str "A", Value.str "20240101", Value.num 1]]⟩⟩

/-- The six-field adjustable subset named by the specification. -/
def adjustableSubsetSpec : List String :=
  ["open", "high", "low", "close", "change", "pre_close"]

/-- The spec's own scenario: a forward-adjusted `{open, close}`
request. -/
def c8QueryOC : FQuery := ⟨"pro_bar", some "open,close", some "qfq"⟩

def c8EnvOC : FetchEnv :=
  ⟨["A"], [c8QueryOC], fun _ => .ok [], fun _ => .ok none,
    fun _ _ => ⟨["ts_code", "trade_date", "open", "close"],
      [[Value.str "A", Value.str "20240101", Value.num 10,
        Value.num 11]]⟩⟩

def c8RecOC : Row :=
  [("ts_code", Value.str "A"), ("trade_date", Value.str "20240101"),
   ("open", Value.num 10), ("close", Value.num 11)]

def c8OutOC : List LongRow :=
  [(Value.str "A", Value.str "20240101", "open_qfq", Value.num 10),
   (Value.str "A", Value.str "20240101", "close_qfq", Value.num 11)]

/-!
## Structural lemmas about the row-level write
-/

theorem getCol_cons (p : String × Value) (s : Row) (c : String) :
    getCol (p :: s) c = if p.1 = c then some p.2 else getCol s c := by
  unfold getCol
  by_cases h : p.1 = c
  · rw [List.find?_cons_of_pos _ (by simp [h])]
    simp [h]
  · rw [List.find?_cons_of_neg _ (by simp [h])]
    simp [h]

theorem overwriteCell_fst (pkArg : List String) (r : Row)
    (p : String × Value) : (overwriteCell pkArg r p).1 = p.1 := by
  unfold overwriteCell
  by_cases h : p.1 ∈ pkArg
  · simp [h]
  · cases hg : getCol r p.1 <;> simp [h, hg]

theorem overwrite_cols (pkArg : List String) (s r : Row) :
    rowCols (overwrite pkArg s r) = rowCols s := by
  unfold overwrite rowCols
  rw [List.map_map]
  apply List.map_congr_left
  intro p _
  exact overwriteCell_fst pkArg r p

theorem overwrite_length (pkArg : List String) (s r : Row) :
    (overwrite pkArg s r).length = s.length := by
  unfold overwrite; simp

theorem overwrite_get (pkArg : List String) (s r : Row) (j : Nat)
    (hj : j < s.length) (hj' : j < (overwrite pkArg s r).length) :
    (overwrite pkArg s r).get ⟨j, hj'⟩ =
      overwriteCell pkArg r (s.get ⟨j, hj⟩) := by
  unfold overwrite
  simp [List.getElem_map]

/-- Looking a column up in an overwritten row: `pkArg` columns and
columns absent from `r` keep the stored value; the rest take `r`'s. -/
theorem getCol_overwrite (pkArg : List String) (s r : Row) (c : String) :
    getCol (overwrite pkArg s r) c =
      match getCol s c with
      | none => none
      | some v => some (if c ∈ pkArg then v else (getCol r c).getD v) := by
  induction s with
  | nil => rfl
  | cons p s ih =>
    rw [overwrite, List.map_cons, getCol_cons, getCol_cons, overwriteCell_fst]
    by_cases h : p.1 = c
    · subst h
      unfold overwriteCell
      by_cases hpk : p.1 ∈ pkArg
      · simp [hpk]
      · cases hg : getCol r p.1 <;> simp [hpk, hg]
    · simp only [h, if_false]
      exact ih

/-- If a stored row and the incoming row agree on every key column (the
duplicate-detection condition), the update leaves the key unchanged. -/
theorem rowKey_overwrite (ks pkArg : List String) (s r : Row)
    (h : rowKey ks s = rowKey ks r) :
    rowKey ks (overwrite pkArg s r) = rowKey ks s := by
  unfold rowKey at *
  rw [List.map_eq_map_iff] at h ⊢
  intro c hc
  have hc' := h c hc
  rw [getCol_overwrite]
  cases hs : getCol s c with
  | none => simp
  | some v =>
    rw [hs] at hc'
    simp [← hc', hs]

theorem overwriteCell_of_not_writes (pkArg : List String) (r : Row)
    (p : String × Value) (h : ¬ writes pkArg r p.1) :
    overwriteCell pkArg r p = p := by
  unfold writes at h
  unfold overwriteCell
  by_cases hpk : p.1 ∈ pkArg
  · simp [hpk]
  · cases hg : getCol r p.1 with
    | none => simp [hpk, hg]
    | some v => exact absurd ⟨by simp [hg], hpk⟩ h

theorem le_length_upsertRow (ks pkArg : List String) (t : List Row)
    (r : Row) : t.length ≤ (upsertRow ks pkArg t r).length := by
  unfold upsertRow
  split
  · simp
  · simp

/-- Position-wise description of one upsert step on the pre-existing
rows: a stored row is updated in place exactly when its key matches. -/
theorem upsertRow_get? (ks pkArg : List String) (t : List Row) (r : Row)
    (i : Nat) (s : Row) (h : t[i]? = some s) :
    (upsertRow ks pkArg t r)[i]? =
      some (if rowKey ks s = rowKey ks r then overwrite pkArg s r else s) := by
  by_cases ha : (t.any fun s => decide (rowKey ks s = rowKey ks r)) = true
  · unfold upsertRow
    rw [if_pos ha, List.getElem?_map, h]
    rfl
  · have hi : i < t.length := by
      by_contra hlen
      rw [List.getElem?_eq_none (Nat.le_of_not_lt hlen)] at h
      exact Option.noConfusion h
    have hmem : s ∈ t := List.getElem?_mem h
    have hne : ¬ (rowKey ks s = rowKey ks r) := by
      intro hk
      exact ha (List.any_eq_true.mpr ⟨s, hmem, by simp [hk]⟩)
    unfold upsertRow
    rw [if_neg ha, List.getElem?_append_left hi, h, if_neg hne]

theorem hasKey_upsertRow_self (ks pkArg : List String) (t : List Row)
    (r : Row) : hasKey ks (upsertRow ks pkArg t r) (rowKey ks r) := by
  unfold upsertRow
  by_cases h : t.any (fun s => rowKey ks s = rowKey ks r)
  · obtain ⟨s, hs, hk⟩ := List.any_eq_true.mp h
    simp only [decide_eq_true_eq] at hk
    refine ⟨overwrite pkArg s r, ?_, ?_⟩
    · simp only [h, if_true]
      exact List.mem_map.mpr ⟨s, hs, by simp [hk]⟩
    · rw [rowKey_overwrite ks pkArg s r hk, hk]
  · exact ⟨r, by simp [h], rfl⟩

theorem hasKey_upsertRow_mono (ks pkArg : List String) (t : List Row)
    (r : Row) (k : List (Option Value)) (h : hasKey ks t k) :
    hasKey ks (upsertRow ks pkArg t r) k := by
  obtain ⟨s, hs, hk⟩ := h
  unfold upsertRow
  by_cases ha : t.any (fun s => rowKey ks s = rowKey ks r)
  · simp only [ha, if_true]
    by_cases hm : rowKey ks s = rowKey ks r
    · exact ⟨overwrite pkArg s r, List.mem_map.mpr ⟨s, hs, by simp [hm]⟩,
        by rw [rowKey_overwrite ks pkArg s r hm, hk]⟩
    · exact ⟨s, List.mem_map.mpr ⟨s, hs, by simp [hm]⟩, hk⟩
  · exact ⟨s, by simp [ha, List.mem_append]; exact Or.inl hs, hk⟩

theorem hasKey_applyRows_mono (ks pkArg : List String) (rs : List Row) :
    ∀ (t : List Row) (k : List (Option Value)), hasKey ks t k →
      hasKey ks (applyRows ks pkArg t rs) k := by
  induction rs with
  | nil => exact fun t k h => h
  | cons r rs ih =>
    intro t k h
    simp only [applyRows, List.foldl_cons]
    exact ih (upsertRow ks pkArg t r) k (hasKey_upsertRow_mono ks pkArg t r k h)

/-- Through a whole batch, a pre-existing row keeps its position, its
column names and its key; and any cell that no batch record writes
keeps its value.  This expresses that the sequential
`ON DUPLICATE KEY UPDATE` execution never moves or deletes rows and
only touches columns carried by a key-matching record. -/
theorem applyRows_track (ks pkArg : List String) (rs : List Row) :
    ∀ (t : List Row) (i : Nat) (s : Row), t[i]? = some s →
    ∃ s', (applyRows ks pkArg t rs)[i]? = some s' ∧
      rowCols s' = rowCols s ∧ rowKey ks s' = rowKey ks s ∧
      ∀ (j : Nat) (p : String × Value), s[j]? = some p →
        (∀ r ∈ rs, rowKey ks r = rowKey ks s → ¬ writes pkArg r p.1) →
        s'[j]? = some p := by
  induction rs with
  | nil => exact fun t i s h => ⟨s, h, rfl, rfl, fun j p hp _ => hp⟩
  | cons r rs ih =>
    intro t i s h
    simp only [applyRows, List.foldl_cons]
    have hu := upsertRow_get? ks pkArg t r i s h
    by_cases hk : rowKey ks s = rowKey ks r
    · rw [if_pos hk] at hu
      obtain ⟨s', h1, h2, h3, h4⟩ := ih (upsertRow ks pkArg t r) i (overwrite pkArg s r) hu
      refine ⟨s', h1, ?_, ?_, ?_⟩
      · rw [h2, overwrite_cols]
      · rw [h3, rowKey_overwrite ks pkArg s r hk]
      · intro j p hp hw
        have hov : (overwrite pkArg s r)[j]? = some (overwriteCell pkArg r p) := by
          unfold overwrite
          rw [List.getElem?_map, hp]
          rfl
        rw [overwriteCell_of_not_writes pkArg r p
          (hw r (List.mem_cons_self r rs) hk.symm)] at hov
        refine h4 j p hov ?_
        intro r' hr' hkey
        rw [rowKey_overwrite ks pkArg s r hk] at hkey
        exact hw r' (List.mem_cons_of_mem r hr') hkey
    · rw [if_neg hk] at hu
      obtain ⟨s', h1, h2, h3, h4⟩ := ih (upsertRow ks pkArg t r) i s hu
      exact ⟨s', h1, h2, h3, fun j p hp hw =>
        h4 j p hp (fun r' hr' hkey => hw r' (List.mem_cons_of_mem r hr') hkey)⟩

/-- Rows appended during a batch carry keys that the initial table did
not have: existing keys are only ever updated in place. -/
theorem applyRows_new_keys (ks pkArg : List String) (rs : List Row) :
    ∀ (t : List Row) (i : Nat) (s' : Row), t.length ≤ i →
      (applyRows ks pkArg t rs)[i]? = some s' →
      ¬ hasKey ks t (rowKey ks s') := by
  induction rs with
  | nil =>
    intro t i s' hle h _
    simp only [applyRows, List.foldl_nil] at h
    rw [List.getElem?_eq_none hle] at h
    exact Option.noConfusion h
  | cons r rs ih =>
    intro t i s' hle h hk
    simp only [applyRows, List.foldl_cons] at h
    by_cases ha : (t.any fun s => decide (rowKey ks s = rowKey ks r)) = true
    · have hlen : (upsertRow ks pkArg t r).length = t.length := by
        unfold upsertRow
        rw [if_pos ha]
        simp
      exact ih (upsertRow ks pkArg t r) i s' (by rw [hlen]; exact hle) h
        (hasKey_upsertRow_mono ks pkArg t r _ hk)
    · have hu : upsertRow ks pkArg t r = t ++ [r] := by
        unfold upsertRow
        rw [if_neg ha]
      rcases Nat.lt_or_ge i (t.length + 1) with hlt | hge
      · have hieq : i = t.length := Nat.le_antisymm (Nat.lt_succ_iff.mp hlt) hle
        have hr : (upsertRow ks pkArg t r)[i]? = some r := by
          rw [hu, hieq, List.getElem?_append_right (Nat.le_refl _)]
          simp
        obtain ⟨s'', h1, _, h3, _⟩ :=
          applyRows_track ks pkArg rs (upsertRow ks pkArg t r) i r hr
        simp only [applyRows] at h1
        rw [h1] at h
        obtain rfl : s'' = s' := Option.some.inj h
        obtain ⟨s0, hs0, hkey0⟩ := hk
        rw [h3] at hkey0
        exact ha (List.any_eq_true.mpr ⟨s0, hs0, by simp [hkey0]⟩)
      · have hle' : (upsertRow ks pkArg t r).length ≤ i := by
          rw [hu]
          simpa using hge
        exact ih (upsertRow ks pkArg t r) i s' hle' h
          (hasKey_upsertRow_mono ks pkArg t r _ hk)

theorem rowRel_same (ks pkArg : List String) (rs : List Row) (u : Row) :
    RowRel ks pkArg rs u u := by
  refine ⟨rfl, rfl, fun j p q hp hq hne => absurd ?_ hne⟩
  rw [hp] at hq
  rw [Option.some.inj hq]

theorem fst_eq_of_cols (u v : Row) (h : rowCols u = rowCols v) (j : Nat)
    (p q : String × Value) (hp : u[j]? = some p) (hq : v[j]? = some q) :
    p.1 = q.1 := by
  have hm : (rowCols u)[j]? = (rowCols v)[j]? := by rw [h]
  unfold rowCols at hm
  rw [List.getElem?_map, List.getElem?_map, hp, hq] at hm
  exact Option.some.inj hm

theorem length_eq_of_cols (u v : Row) (h : rowCols u = rowCols v) :
    u.length = v.length := by
  have := congrArg List.length h
  unfold rowCols at this
  simpa using this

/-- With no records pending, related rows are equal. -/
theorem RowRel.eq (ks pkArg : List String) (u v : Row)
    (h : RowRel ks pkArg [] u v) : u = v := by
  obtain ⟨hcols, _, hcell⟩ := h
  apply List.ext_getElem?
  intro j
  cases hp : u[j]? with
  | none =>
    have hlen := length_eq_of_cols u v hcols
    have : v.length ≤ j := by
      rw [← hlen]
      by_contra hlt
      rw [List.getElem?_eq_getElem (Nat.lt_of_not_le hlt)] at hp
      exact Option.noConfusion hp
    rw [List.getElem?_eq_none this]
  | some p =>
    cases hq : v[j]? with
    | none =>
      have hlen := length_eq_of_cols u v hcols
      have hj : j < u.length := by
        by_contra hge
        rw [List.getElem?_eq_none (Nat.le_of_not_lt hge)] at hp
        exact Option.noConfusion hp
      rw [List.getElem?_eq_getElem (hlen ▸ hj)] at hq
      exact Option.noConfusion hq
    | some q =>
      have h1 := fst_eq_of_cols u v hcols j p q hp hq
      have h2 : p.2 = q.2 := by
        by_contra hne
        obtain ⟨r, hr, _⟩ := hcell j p q hp hq hne
        exact (List.not_mem_nil r) hr
      rw [Prod.ext h1 h2]

theorem tableRel_any_eq (ks pkArg : List String) (rs : List Row)
    (U V : List Row) (h : TableRel ks pkArg rs U V) (r : Row) :
    (U.any fun s => decide (rowKey ks s = rowKey ks r)) =
      (V.any fun s => decide (rowKey ks s = rowKey ks r)) := by
  obtain ⟨hlen, hrel⟩ := h
  by_cases hU : (U.any fun s => decide (rowKey ks s = rowKey ks r)) = true
  · obtain ⟨u, hu, hku⟩ := List.any_eq_true.mp hU
    simp only [decide_eq_true_eq] at hku
    obtain ⟨i, hi⟩ := List.mem_iff_getElem?.mp hu
    have hiv : i < V.length := by
      rw [← hlen]
      by_contra hge
      rw [List.getElem?_eq_none (Nat.le_of_not_lt hge)] at hi
      exact Option.noConfusion hi
    have hv : V[i]? = some (V.get ⟨i, hiv⟩) := by
      rw [List.getElem?_eq_getElem hiv]
      rfl
    have hrel' := hrel i u _ hi hv
    rw [hU]
    symm
    refine List.any_eq_true.mpr ⟨V.get ⟨i, hiv⟩, List.getElem?_mem hv, ?_⟩
    have := hrel'.2.1
    simp only [List.get_eq_getElem] at this
    simp only [List.get_eq_getElem, decide_eq_true_eq]
    rw [← this]
    exact hku
  · rw [Bool.eq_false_iff.mpr hU]
    symm
    rw [Bool.eq_false_iff]
    intro hV
    apply hU
    obtain ⟨v, hv, hkv⟩ := List.any_eq_true.mp hV
    simp only [decide_eq_true_eq] at hkv
    obtain ⟨i, hi⟩ := List.mem_iff_getElem?.mp hv
    have hiu : i < U.length := by
      rw [hlen]
      by_contra hge
      rw [List.getElem?_eq_none (Nat.le_of_not_lt hge)] at hi
      exact Option.noConfusion hi
    have hu : U[i]? = some (U.get ⟨i, hiu⟩) := by
      rw [List.getElem?_eq_getElem hiu]
      rfl
    have hrel' := hrel i _ v hu hi
    refine List.any_eq_true.mpr ⟨U.get ⟨i, hiu⟩, List.getElem?_mem hu, ?_⟩
    have := hrel'.2.1
    simp only [List.get_eq_getElem] at this
    simp only [List.get_eq_getElem, decide_eq_true_eq]
    rw [this]
    exact hkv

/-- One step of convergence: consuming the head record turns a
`r :: rs`-related pair of tables into an `rs`-related pair. -/
theorem upsertRow_rel (ks pkArg : List String) (rs : List Row) (r : Row)
    (U V : List Row) (h : TableRel ks pkArg (r :: rs) U V) :
    TableRel ks pkArg rs (upsertRow ks pkArg U r) (upsertRow ks pkArg V r) := by
  obtain ⟨hlen, hrel⟩ := h
  have hany := tableRel_any_eq ks pkArg (r :: rs) U V ⟨hlen, hrel⟩ r
  by_cases hU : (U.any fun s => decide (rowKey ks s = rowKey ks r)) = true
  · have hV : (V.any fun s => decide (rowKey ks s = rowKey ks r)) = true := by
      rw [← hany]
      exact hU
    have hU' : upsertRow ks pkArg U r =
        U.map (fun s => if rowKey ks s = rowKey ks r then overwrite pkArg s r else s) := by
      unfold upsertRow
      rw [if_pos hU]
    have hV' : upsertRow ks pkArg V r =
        V.map (fun s => if rowKey ks s = rowKey ks r then overwrite pkArg s r else s) := by
      unfold upsertRow
      rw [if_pos hV]
    rw [hU', hV']
    refine ⟨by simp [hlen], ?_⟩
    intro i u' v' hu' hv'
    rw [List.getElem?_map] at hu' hv'
    obtain ⟨u, hu, hgu⟩ := Option.map_eq_some'.mp hu'
    obtain ⟨v, hv, hgv⟩ := Option.map_eq_some'.mp hv'
    obtain ⟨hcols, hkey, hcell⟩ := hrel i u v hu hv
    subst hgu hgv
    by_cases hk : rowKey ks u = rowKey ks r
    · have hkv : rowKey ks v = rowKey ks r := by
        rw [← hkey]
        exact hk
      rw [if_pos hk, if_pos hkv]
      refine ⟨?_, ?_, ?_⟩
      · rw [overwrite_cols, overwrite_cols, hcols]
      · rw [rowKey_overwrite ks pkArg u r hk, rowKey_overwrite ks pkArg v r hkv, hkey]
      · intro j p' q' hp' hq' hne
        unfold overwrite at hp' hq'
        rw [List.getElem?_map] at hp' hq'
        obtain ⟨p, hp, hcp⟩ := Option.map_eq_some'.mp hp'
        obtain ⟨q, hq, hcq⟩ := Option.map_eq_some'.mp hq'
        have hfst : p.1 = q.1 := fst_eq_of_cols u v hcols j p q hp hq
        have hp1 : p'.1 = p.1 := by
          rw [← hcp]
          exact overwriteCell_fst pkArg r p
        by_cases hpk : p.1 ∈ pkArg
        · have hcp' : overwriteCell pkArg r p = p := by
            unfold overwriteCell
            rw [if_pos hpk]
          have hcq' : overwriteCell pkArg r q = q := by
            unfold overwriteCell
            rw [if_pos (hfst ▸ hpk)]
          rw [hcp'] at hcp
          rw [hcq'] at hcq
          subst hcp hcq
          obtain ⟨r'', _, _, hw''⟩ := hcell j p q hp hq hne
          exact absurd hpk hw''.2
        · cases hgr : getCol r p.1 with
          | some w =>
            have hcp' : overwriteCell pkArg r p = (p.1, w) := by
              unfold overwriteCell
              rw [if_neg hpk, hgr]
            have hcq' : overwriteCell pkArg r q = (q.1, w) := by
              unfold overwriteCell
              rw [if_neg (hfst ▸ hpk), ← hfst, hgr]
            rw [hcp'] at hcp
            rw [hcq'] at hcq
            subst hcp hcq
            simp at hne
          | none =>
            have hcp' : overwriteCell pkArg r p = p := by
              unfold overwriteCell
              rw [if_neg hpk, hgr]
            have hcq' : overwriteCell pkArg r q = q := by
              unfold overwriteCell
              rw [if_neg (hfst ▸ hpk), ← hfst, hgr]
            rw [hcp'] at hcp
            rw [hcq'] at hcq
            subst hcp hcq
            obtain ⟨r'', hr'', hkey'', hw''⟩ := hcell j p q hp hq hne
            rcases List.mem_cons.mp hr'' with hre | hrs
            · subst hre
              exact absurd hw''.1 (by simp [hgr])
            · refine ⟨r'', hrs, ?_, hw''⟩
              rw [rowKey_overwrite ks pkArg u r hk]
              exact hkey''
    · have hkv : ¬ (rowKey ks v = rowKey ks r) := by
        rw [← hkey]
        exact hk
      rw [if_neg hk, if_neg hkv]
      obtain ⟨hcols, hkey, hcell⟩ := hrel i u v hu hv
      refine ⟨hcols, hkey, ?_⟩
      intro j p q hp hq hne
      obtain ⟨r'', hr'', hkey'', hw''⟩ := hcell j p q hp hq hne
      rcases List.mem_cons.mp hr'' with hre | hrs
      · subst hre
        exact absurd hkey''.symm hk
      · exact ⟨r'', hrs, hkey'', hw''⟩
  · have hV : ¬ (V.any fun s => decide (rowKey ks s = rowKey ks r)) = true := by
      rw [← hany]
      exact hU
    have hU' : upsertRow ks pkArg U r = U ++ [r] := by
      unfold upsertRow
      rw [if_neg hU]
    have hV' : upsertRow ks pkArg V r = V ++ [r] := by
      unfold upsertRow
      rw [if_neg hV]
    rw [hU', hV']
    refine ⟨by simp [hlen], ?_⟩
    intro i u' v' hu' hv'
    rcases Nat.lt_or_ge i U.length with hlt | hge
    · rw [List.getElem?_append_left hlt] at hu'
      rw [List.getElem?_append_left (hlen ▸ hlt)] at hv'
      obtain ⟨hcols, hkey, hcell⟩ := hrel i u' v' hu' hv'
      refine ⟨hcols, hkey, ?_⟩
      intro j p q hp hq hne
      obtain ⟨r'', hr'', hkey'', hw''⟩ := hcell j p q hp hq hne
      rcases List.mem_cons.mp hr'' with hre | hrs
      · subst hre
        exact absurd (List.any_eq_true.mpr
          ⟨u', List.getElem?_mem hu', by simp [hkey'']⟩) hU
      · exact ⟨r'', hrs, hkey'', hw''⟩
    · have hu'' : u' = r := by
        rw [List.getElem?_append_right hge] at hu'
        rcases Nat.eq_or_lt_of_le hge with heq | hlt'
        · rw [← heq, Nat.sub_self] at hu'
          exact (Option.some.inj hu').symm
        · rw [List.getElem?_eq_none (by simp; omega)] at hu'
          exact absurd hu' (by simp)
      have hv'' : v' = r := by
        rw [List.getElem?_append_right (hlen ▸ hge)] at hv'
        rcases Nat.eq_or_lt_of_le hge with heq | hlt'
        · rw [hlen] at heq
          rw [← heq, Nat.sub_self] at hv'
          exact (Option.some.inj hv').symm
        · rw [List.getElem?_eq_none (by simp; omega)] at hv'
          exact absurd hv' (by simp)
      rw [hu'', hv'']
      exact rowRel_same ks pkArg rs r

/-- Related tables converge once the pending batch has run. -/
theorem applyRows_congr (ks pkArg : List String) (rs : List Row) :
    ∀ (U V : List Row), TableRel ks pkArg rs U V →
      applyRows ks pkArg U rs = applyRows ks pkArg V rs := by
  induction rs with
  | nil =>
    intro U V h
    simp only [applyRows, List.foldl_nil]
    obtain ⟨hlen, hrel⟩ := h
    apply List.ext_getElem?
    intro i
    cases hu : U[i]? with
    | none =>
      have hle : U.length ≤ i := by
        by_contra hlt
        rw [List.getElem?_eq_getElem (Nat.lt_of_not_le hlt)] at hu
        exact Option.noConfusion hu
      rw [List.getElem?_eq_none (hlen ▸ hle)]
    | some u =>
      have hiv : i < V.length := by
        rw [← hlen]
        by_contra hge
        rw [List.getElem?_eq_none (Nat.le_of_not_lt hge)] at hu
        exact Option.noConfusion hu
      have hv : V[i]? = some (V.get ⟨i, hiv⟩) := by
        rw [List.getElem?_eq_getElem hiv]
        rfl
      rw [hv]
      congr 1
      exact RowRel.eq ks pkArg u _ (hrel i u _ hu hv)
  | cons r rs ih =>
    intro U V h
    simp only [applyRows, List.foldl_cons]
    have := upsertRow_rel ks pkArg rs r U V h
    simp only [applyRows] at ih
    exact ih _ _ this

/-- Any row of `upsertRow t r` whose key equals `r`'s is either a
matched stored row freshly overwritten by `r`, or `r` itself. -/
theorem upsertRow_key_row (ks pkArg : List String) (t : List Row) (r w0 : Row)
    (i : Nat) (h : (upsertRow ks pkArg t r)[i]? = some w0)
    (hk : rowKey ks w0 = rowKey ks r) :
    (∃ s, t[i]? = some s ∧ rowKey ks s = rowKey ks r ∧
      w0 = overwrite pkArg s r) ∨ w0 = r := by
  rcases Nat.lt_or_ge i t.length with hlt | hge
  · have hs : t[i]? = some (t.get ⟨i, hlt⟩) := by
      rw [List.getElem?_eq_getElem hlt]
      rfl
    have := upsertRow_get? ks pkArg t r i _ hs
    rw [this] at h
    have hval := Option.some.inj h
    by_cases hks : rowKey ks (t.get ⟨i, hlt⟩) = rowKey ks r
    · rw [if_pos hks] at hval
      exact Or.inl ⟨t.get ⟨i, hlt⟩, hs, hks, hval.symm⟩
    · rw [if_neg hks] at hval
      rw [hval] at hks
      exact absurd hk hks
  · by_cases ha : (t.any fun s => decide (rowKey ks s = rowKey ks r)) = true
    · have hlen : (upsertRow ks pkArg t r).length = t.length := by
        unfold upsertRow
        rw [if_pos ha]
        simp
      rw [List.getElem?_eq_none (by rw [hlen]; exact hge)] at h
      exact Option.noConfusion h
    · have hu : upsertRow ks pkArg t r = t ++ [r] := by
        unfold upsertRow
        rw [if_neg ha]
      rw [hu, List.getElem?_append_right hge] at h
      rcases Nat.eq_or_lt_of_le hge with heq | hlt'
      · rw [← heq, Nat.sub_self] at h
        exact Or.inr (Option.some.inj h).symm
      · rw [List.getElem?_eq_none (by simp; omega)] at h
        exact absurd h (by simp)

/-- In a row with distinct column names, the column lookup at any
position returns exactly that position's value. -/
theorem getCol_of_nodup (r : Row) (h : (rowCols r).Nodup) :
    ∀ (j : Nat) (p : String × Value), r[j]? = some p →
      getCol r p.1 = some p.2 := by
  induction r with
  | nil =>
    intro j p hp
    rw [List.getElem?_nil] at hp
    exact Option.noConfusion hp
  | cons p0 rtail ih =>
    intro j p hp
    have hnd := h
    unfold rowCols at hnd
    rw [List.map_cons, List.nodup_cons] at hnd
    cases j with
    | zero =>
      rw [List.getElem?_cons_zero] at hp
      obtain rfl := Option.some.inj hp
      rw [getCol_cons, if_pos rfl]
    | succ j =>
      rw [List.getElem?_cons_succ] at hp
      have hmemname : p.1 ∈ rtail.map (·.1) :=
        List.mem_map.mpr ⟨p, List.getElem?_mem hp, rfl⟩
      rw [getCol_cons, if_neg ?_]
      · exact ih hnd.2 j p hp
      · intro heq
        rw [heq] at hnd
        exact hnd.1 hmemname

/-- A cell of the update clause is a fixed point of a second identical
update: the written value depends only on the (unchanged) column name. -/
theorem overwriteCell_idem (pkArg : List String) (r : Row)
    (p : String × Value) :
    overwriteCell pkArg r (overwriteCell pkArg r p) =
      overwriteCell pkArg r p := by
  by_cases hpk : p.1 ∈ pkArg
  · have h1 : overwriteCell pkArg r p = p := by
      unfold overwriteCell
      rw [if_pos hpk]
    rw [h1, h1]
  · cases hg : getCol r p.1 with
    | none =>
      have h1 : overwriteCell pkArg r p = p := by
        unfold overwriteCell
        rw [if_neg hpk, hg]
      rw [h1, h1]
    | some w =>
      have h1 : overwriteCell pkArg r p = (p.1, w) := by
        unfold overwriteCell
        rw [if_neg hpk, hg]
      rw [h1]
      simp [overwriteCell, hpk, hg]

/-- Cells of a key-`r` row right after `r`'s own upsert absorb the
update clause: a second pass over them changes nothing. -/
theorem upsertRow_cell_absorb (ks pkArg : List String) (t : List Row)
    (r : Row) (hndr : (rowCols r).Nodup) (i : Nat) (w0 : Row)
    (h : (upsertRow ks pkArg t r)[i]? = some w0)
    (hk : rowKey ks w0 = rowKey ks r) (j : Nat) (p : String × Value)
    (hp : w0[j]? = some p) : overwriteCell pkArg r p = p := by
  rcases upsertRow_key_row ks pkArg t r w0 i h hk with ⟨s0, _, _, hwov⟩ | hrr
  · rw [hwov] at hp
    unfold overwrite at hp
    rw [List.getElem?_map] at hp
    obtain ⟨p0, _, hc0⟩ := Option.map_eq_some'.mp hp
    rw [← hc0]
    exact overwriteCell_idem pkArg r p0
  · rw [hrr] at hp
    have hlook := getCol_of_nodup r hndr j p hp
    unfold overwriteCell
    by_cases hpk : p.1 ∈ pkArg
    · rw [if_pos hpk]
    · rw [if_neg hpk, hlook]

/-- **Idempotence of the batched upsert** against a table with an
enforced unique key: running the same record batch a second time
reproduces the state after the first run exactly, provided each record
lists each column once (MySQL rejects a statement naming a column
twice, so the write path never sees such a record). -/
theorem applyRows_idem (ks pkArg : List String) :
    ∀ (rs : List Row), (∀ r ∈ rs, (rowCols r).Nodup) →
    ∀ (t : List Row),
      applyRows ks pkArg (applyRows ks pkArg t rs) rs =
        applyRows ks pkArg t rs := by
  intro rs
  induction rs with
  | nil => exact fun _ t => rfl
  | cons r rs ih =>
    intro hnd t
    have hndr : (rowCols r).Nodup := hnd r (List.mem_cons_self r rs)
    have hndtail : ∀ r' ∈ rs, (rowCols r').Nodup :=
      fun r' h' => hnd r' (List.mem_cons_of_mem r h')
    simp only [applyRows, List.foldl_cons]
    have hIH : applyRows ks pkArg
        (applyRows ks pkArg (upsertRow ks pkArg t r) rs) rs =
        applyRows ks pkArg (upsertRow ks pkArg t r) rs := ih hndtail _
    simp only [applyRows] at hIH
    have hkW : hasKey ks (upsertRow ks pkArg t r) (rowKey ks r) :=
      hasKey_upsertRow_self ks pkArg t r
    have hkT : hasKey ks
        (List.foldl (upsertRow ks pkArg) (upsertRow ks pkArg t r) rs)
        (rowKey ks r) := by
      have := hasKey_applyRows_mono ks pkArg rs (upsertRow ks pkArg t r)
        (rowKey ks r) hkW
      simpa [applyRows] using this
    set W := upsertRow ks pkArg t r with hW
    set T := List.foldl (upsertRow ks pkArg) W rs with hT
    -- The second pass's head step finds the key present: in-place map.
    have haT : (T.any fun s => decide (rowKey ks s = rowKey ks r)) = true := by
      obtain ⟨s, hs, hkey⟩ := hkT
      exact List.any_eq_true.mpr ⟨s, hs, by simp [hkey]⟩
    have hmap : upsertRow ks pkArg T r =
        T.map (fun s => if rowKey ks s = rowKey ks r then overwrite pkArg s r else s) := by
      unfold upsertRow
      rw [if_pos haT]
    -- The mapped table is TableRel-related to T for the remaining batch.
    have hrelTab : TableRel ks pkArg rs
        (T.map (fun s => if rowKey ks s = rowKey ks r then overwrite pkArg s r else s)) T := by
      refine ⟨by simp, ?_⟩
      intro i u' v' hu' hv'
      rw [List.getElem?_map] at hu'
      obtain ⟨v0, hv0, hgv⟩ := Option.map_eq_some'.mp hu'
      rw [hv0] at hv'
      obtain rfl := Option.some.inj hv'
      by_cases hkk : rowKey ks v0 = rowKey ks r
      · rw [if_pos hkk] at hgv
        rw [← hgv]
        refine ⟨overwrite_cols pkArg v0 r, rowKey_overwrite ks pkArg v0 r hkk, ?_⟩
        intro j p' q' hp' hq' hne
        unfold overwrite at hp'
        rw [List.getElem?_map, hq'] at hp'
        have hp'c : p' = overwriteCell pkArg r q' := (Option.some.inj hp').symm
        have hp'1 : p'.1 = q'.1 := by
          rw [hp'c]
          exact overwriteCell_fst pkArg r q'
        by_contra hnocov
        push_neg at hnocov
        -- The row sits at a position already occupied in W.
        have hiW : i < W.length := by
          by_contra hgeW
          exact applyRows_new_keys ks pkArg rs W i v0 (Nat.le_of_not_lt hgeW)
            (by simpa [applyRows] using hv0) (by rw [hkk]; exact hkW)
        have hsW : W[i]? = some (W.get ⟨i, hiW⟩) := by
          rw [List.getElem?_eq_getElem hiW]
          rfl
        obtain ⟨s', h1, h2, h3, h4⟩ :=
          applyRows_track ks pkArg rs W i (W.get ⟨i, hiW⟩) hsW
        simp only [applyRows] at h1
        rw [hv0] at h1
        have hvs : v0 = s' := Option.some.inj h1
        subst hvs
        have hkW0 : rowKey ks (W.get ⟨i, hiW⟩) = rowKey ks r := by
          rw [← h3]
          exact hkk
        have hjv : j < v0.length := by
          by_contra hgej
          rw [List.getElem?_eq_none (Nat.le_of_not_lt hgej)] at hq'
          exact Option.noConfusion hq'
        have hjW : j < (W.get ⟨i, hiW⟩).length := by
          rw [← length_eq_of_cols _ _ h2]
          exact hjv
        have hpW : (W.get ⟨i, hiW⟩)[j]? = some ((W.get ⟨i, hiW⟩).get ⟨j, hjW⟩) := by
          rw [List.getElem?_eq_getElem hjW]
          rfl
        have hname : q'.1 = ((W.get ⟨i, hiW⟩).get ⟨j, hjW⟩).1 :=
          fst_eq_of_cols v0 _ h2 j q' _ hq' hpW
        have hside : ∀ r'' ∈ rs, rowKey ks r'' = rowKey ks (W.get ⟨i, hiW⟩) →
            ¬ writes pkArg r'' ((W.get ⟨i, hiW⟩).get ⟨j, hjW⟩).1 := by
          intro r'' hr'' hkey'' hwr
          have hkey2 : rowKey ks r'' = rowKey ks (overwrite pkArg v0 r) := by
            rw [rowKey_overwrite ks pkArg v0 r hkk, h3]
            exact hkey''
          apply hnocov r'' hr'' hkey2
          rw [hp'1, hname]
          exact hwr
        have hcellW := h4 j _ hpW hside
        rw [hq'] at hcellW
        have hq'W : q' = (W.get ⟨i, hiW⟩).get ⟨j, hjW⟩ := Option.some.inj hcellW
        have habs : overwriteCell pkArg r q' = q' := by
          rw [hq'W]
          exact upsertRow_cell_absorb ks pkArg t r hndr i _
            (by rw [← hW]; exact hsW) hkW0 j _ hpW
        rw [hp'c, habs] at hne
        exact hne rfl
      · rw [if_neg hkk] at hgv
        rw [← hgv]
        exact rowRel_same ks pkArg rs v0
    calc List.foldl (upsertRow ks pkArg) (upsertRow ks pkArg T r) rs
        = applyRows ks pkArg (upsertRow ks pkArg T r) rs := rfl
      _ = applyRows ks pkArg T rs := by
          rw [hmap]
          exact applyRows_congr ks pkArg rs _ T hrelTab
      _ = T := hIH

/-!
## Support lemmas for the store-level theorems
-/

theorem rowCols_cleanRow (r : Row) : rowCols (cleanRow r) = rowCols r := by
  unfold rowCols cleanRow
  rw [List.map_map]
  rfl

theorem rowCols_zip (cols : List String) (vs : List Value) :
    rowCols (cols.zip vs) = cols.take vs.length := by
  induction cols generalizing vs with
  | nil => simp [rowCols]
  | cons c cols ih =>
    cases vs with
    | nil => simp [rowCols]
    | cons v vs =>
      simp only [List.zip_cons_cons, List.length_cons, List.take_succ_cons]
      rw [rowCols, List.map_cons, ← rowCols]
      rw [ih vs]

theorem cleanRecords_nodup (df : DFrame) (h : df.cols.Nodup) :
    ∀ r ∈ cleanRecords df, (rowCols r).Nodup := by
  intro r hr
  unfold cleanRecords DFrame.records at hr
  rw [List.map_map] at hr
  obtain ⟨vs, _, rfl⟩ := List.mem_map.mp hr
  simp only [Function.comp]
  rw [rowCols_cleanRow, rowCols_zip]
  exact h.sublist (List.take_sublist _ _)

theorem setTable_self (db : DB) (n : String) (tbl : Table) :
    db.setTable n tbl n = some tbl := by
  unfold DB.setTable
  simp

theorem setTable_same (db : DB) (n : String) (tbl : Table)
    (h : db n = some tbl) : db.setTable n tbl = db := by
  funext m
  unfold DB.setTable
  by_cases hm : m = n
  · rw [if_pos hm, hm, h]
  · rw [if_neg hm]

/-- **Amended idempotence (C1)**: when the target table already exists
with an enforced unique key, and the transactional writes go through,
`upsert_to_mysql` is idempotent: the second identical call reproduces
the store state of the first exactly. -/
theorem upsertTryBody_ok (env : SqlEnv) (db1 : DB) (tableName : String)
    (records : List Row) (cols pkArg : List String) (tbl tbl2 : Table)
    (h : db1 tableName = some tbl)
    (hw : mysqlWrite env tbl pkArg records cols = some tbl2) :
    upsertTryBody env db1 true tableName records cols pkArg =
      .ok (db1.setTable tableName tbl2) := by
  unfold upsertTryBody
  rw [h]
  simp only [hw]

theorem upsertToMysql_eq (env : SqlEnv) (db : DB) (tableName : String)
    (df : DFrame) (pkArg : List String) (createSql : String) (db1 : DB)
    (ok : Bool) (hemp : df.isEmpty = false)
    (hens : ensureTableExists env db tableName createSql df = (db1, ok)) :
    upsertToMysql env db tableName df pkArg createSql =
      (match upsertTryBody env db1 ok tableName (cleanRecords df)
          df.cols pkArg with
       | .ok db2 => db2
       | .error _ => db1) := by
  unfold upsertToMysql
  rw [hemp]
  simp only [Bool.false_eq_true, if_false]
  rw [hens]

/-- **Amended idempotence (C1)**: when the target table already exists
with an enforced unique key, and the transactional writes go through,
`upsert_to_mysql` is idempotent: the second identical call reproduces
the store state of the first exactly. -/
theorem upsertToMysql_idem (env : SqlEnv) (db : DB) (name : String)
    (df : DFrame) (pkArg : List String) (createSql : String)
    (tbl : Table) (ks : List String)
    (htbl : db name = some tbl) (hkey : tbl.key = some ks)
    (hnodup : df.cols.Nodup) (hfail : env.failAt = none) :
    upsertToMysql env (upsertToMysql env db name df pkArg createSql)
        name df pkArg createSql =
      upsertToMysql env db name df pkArg createSql := by
  by_cases hemp : df.isEmpty = true
  · simp only [upsertToMysql, hemp, if_true]
  · have hempf : df.isEmpty = false := by
      revert hemp
      cases df.isEmpty <;> simp
    have h1 : ensureTableExists env db name createSql df = (db, true) := by
      unfold ensureTableExists DB.hasTable
      rw [htbl]
      simp
    have hwr : ∀ t0 : Table, t0.key = some ks →
        mysqlWrite env t0 pkArg (cleanRecords df) df.cols =
          some ⟨some ks, applyRows ks pkArg t0.rows (cleanRecords df)⟩ := by
      intro t0 hk0
      unfold mysqlWrite
      rw [if_neg (not_not_intro hnodup), hfail, hk0]
      rfl
    have honce : upsertToMysql env db name df pkArg createSql =
        db.setTable name ⟨some ks, applyRows ks pkArg tbl.rows (cleanRecords df)⟩ := by
      rw [upsertToMysql_eq env db name df pkArg createSql db true hempf h1,
        upsertTryBody_ok env db name (cleanRecords df) df.cols pkArg tbl _
          htbl (hwr tbl hkey)]
    rw [honce]
    have hdb' : (db.setTable name
        ⟨some ks, applyRows ks pkArg tbl.rows (cleanRecords df)⟩) name =
        some ⟨some ks, applyRows ks pkArg tbl.rows (cleanRecords df)⟩ :=
      setTable_self db name _
    have h2 : ensureTableExists env (db.setTable name
        ⟨some ks, applyRows ks pkArg tbl.rows (cleanRecords df)⟩) name
        createSql df =
        (db.setTable name ⟨some ks, applyRows ks pkArg tbl.rows (cleanRecords df)⟩,
          true) := by
      unfold ensureTableExists DB.hasTable
      rw [hdb']
      simp
    rw [upsertToMysql_eq env _ name df pkArg createSql _ true hempf h2,
      upsertTryBody_ok env _ name (cleanRecords df) df.cols pkArg _ _ hdb'
        (hwr _ rfl)]
    have hidem : applyRows ks pkArg (applyRows ks pkArg tbl.rows (cleanRecords df))
        (cleanRecords df) = applyRows ks pkArg tbl.rows (cleanRecords df) :=
      applyRows_idem ks pkArg (cleanRecords df) (cleanRecords_nodup df hnodup) tbl.rows
    simp only [hidem]
    exact setTable_same _ name _ hdb'

/-- **Counterexample to C1 as stated.**  For a table that does not
exist and is not in the catalog, the default-argument upsert
auto-creates it from the row-set itself via `df.to_sql`; that table
has no unique index, so the INSERT after creation and every subsequent
run plainly append: the state after two identical upserts differs from
the state after one (3 copies of the row versus 2). -/
theorem upsert_idem_fails_on_autocreated_table :
    upsertToMysql envPlain
        (upsertToMysql envPlain DB.empty "my_factors" dfSample ["ts_code"] "")
        "my_factors" dfSample ["ts_code"] "" "my_factors" ≠
      upsertToMysql envPlain DB.empty "my_factors" dfSample ["ts_code"] ""
        "my_factors" := by
  decide

/-- Witness instantiating `upsertToMysql_idem` at a concrete store that
already holds the catalog table `stock_daily` with its declared key. -/
theorem upsertToMysql_idem_witness :
    (DB.empty.setTable "stock_daily" ⟨some ["ts_code", "trade_date"], []⟩)
        "stock_daily" = some ⟨some ["ts_code", "trade_date"], []⟩ ∧
    (Table.mk (some ["ts_code", "trade_date"]) []).key =
      some ["ts_code", "trade_date"] ∧
    dfSample.cols.Nodup ∧ envPlain.failAt = none ∧
    upsertToMysql envPlain
        (upsertToMysql envPlain
          (DB.empty.setTable "stock_daily" ⟨some ["ts_code", "trade_date"], []⟩)
          "stock_daily" dfSample ["ts_code"] "")
        "stock_daily" dfSample ["ts_code"] "" =
      upsertToMysql envPlain
        (DB.empty.setTable "stock_daily" ⟨some ["ts_code", "trade_date"], []⟩)
        "stock_daily" dfSample ["ts_code"] "" :=
  ⟨rfl, rfl, by decide, rfl,
    upsertToMysql_idem envPlain
      (DB.empty.setTable "stock_daily" ⟨some ["ts_code", "trade_date"], []⟩)
      "stock_daily" dfSample ["ts_code"] "" _ _ rfl rfl (by decide) rfl⟩

/-- **C4: atomicity and the no-throw boundary.**  Whatever the
environment does — the write may raise at any record, the table may
need creating — `upsert_to_mysql` returns a store (the `try/except`
swallows every exception), and that store is exactly one of: the input
store (empty-frame no-op), the post-`ensure_table_exists` store with no
batch row applied (failure, transaction rolled back), or the
post-`ensure_table_exists` store with the whole batch applied to the
target table.  No strict partial prefix of the batch is ever visible. -/
theorem upsertToMysql_atomic (env : SqlEnv) (db : DB) (name : String)
    (df : DFrame) (pkArg : List String) (createSql : String) :
    upsertToMysql env db name df pkArg createSql = db ∨
    upsertToMysql env db name df pkArg createSql =
      (ensureTableExists env db name createSql df).1 ∨
    ∃ tbl : Table,
      (ensureTableExists env db name createSql df).1 name = some tbl ∧
      upsertToMysql env db name df pkArg createSql =
        (ensureTableExists env db name createSql df).1.setTable name
          ⟨tbl.key, insertRows tbl.key pkArg tbl.rows (cleanRecords df)⟩ := by
  by_cases hemp : df.isEmpty = true
  · left
    simp only [upsertToMysql, hemp, if_true]
  · have hempf : df.isEmpty = false := by
      revert hemp
      cases df.isEmpty <;> simp
    have hens : ensureTableExists env db name createSql df =
        ((ensureTableExists env db name createSql df).1,
         (ensureTableExists env db name createSql df).2) := rfl
    rw [upsertToMysql_eq env db name df pkArg createSql _ _ hempf hens]
    cases hok : (ensureTableExists env db name createSql df).2 with
    | false =>
      right; left
      simp [upsertTryBody]
    | true =>
      cases htb : (ensureTableExists env db name createSql df).1 name with
      | none =>
        right; left
        simp [upsertTryBody, htb]
      | some tbl =>
        cases hw : mysqlWrite env tbl pkArg (cleanRecords df) df.cols with
        | none =>
          right; left
          simp [upsertTryBody, htb, hw]
        | some tbl2 =>
          right; right
          refine ⟨tbl, rfl, ?_⟩
          rw [upsertTryBody_ok env _ name (cleanRecords df) df.cols pkArg
            tbl tbl2 htb hw]
          have htbl2 : tbl2 =
              ⟨tbl.key, insertRows tbl.key pkArg tbl.rows (cleanRecords df)⟩ := by
            unfold mysqlWrite at hw
            by_cases hnd : df.cols.Nodup
            · rw [if_neg (not_not_intro hnd)] at hw
              cases hfa : env.failAt with
              | none =>
                simp only [hfa] at hw
                exact (Option.some.inj hw).symm
              | some n =>
                simp only [hfa] at hw
                by_cases hn : n < (cleanRecords df).length
                · rw [if_pos hn] at hw
                  exact absurd hw (by simp)
                · rw [if_neg hn] at hw
                  exact (Option.some.inj hw).symm
            · rw [if_pos hnd] at hw
              exact absurd hw (by simp)
          rw [← htbl2]

/-- **C5: the code auto-creates from data by default** (evaluating the
code at the failing input).  With the default empty `create_sql`, a
target table absent from both the store and the catalog, and a
non-empty frame, `ensure_table_exists` reports success after silently
creating the table from the frame itself — it does not abort. -/
theorem ensure_autocreates_from_data :
    (ensureTableExists envPlain DB.empty "my_factors" "" dfSample).2 = true ∧
    (ensureTableExists envPlain DB.empty "my_factors" "" dfSample).1
        "my_factors" = some ⟨none, cleanRecords dfSample⟩ := by
  exact ⟨rfl, rfl⟩

theorem mem_sInsert (l : List String) (x y : String) :
    y ∈ sInsert l x ↔ y ∈ l ∨ y = x := by
  unfold sInsert
  by_cases h : x ∈ l
  · rw [if_pos h]
    constructor
    · exact Or.inl
    · rintro (hy | rfl)
      · exact hy
      · exact h
  · rw [if_neg h]
    simp

theorem mem_sUpdate (xs : List String) :
    ∀ (l : List String) (y : String), y ∈ sUpdate l xs ↔ y ∈ l ∨ y ∈ xs := by
  induction xs with
  | nil => simp [sUpdate]
  | cons x xs ih =>
    intro l y
    simp only [sUpdate, List.foldl_cons]
    rw [show List.foldl sInsert (sInsert l x) xs = sUpdate (sInsert l x) xs from rfl]
    rw [ih (sInsert l x) y, mem_sInsert]
    simp only [List.mem_cons]
    tauto

theorem mem_sRemove (l : List String) (x y : String) :
    y ∈ sRemove l x ↔ y ∈ l ∧ y ≠ x := by
  unfold sRemove
  rw [List.mem_filter]
  simp

theorem mem_fixupQfq_elim (l : List String) (y : String)
    (h : y ∈ fixupQfq l) : y ∈ l ∨ y = "price_change_qfq" := by
  unfold fixupQfq at h
  split at h
  · rcases (mem_sInsert _ _ _).mp h with h | rfl
    · exact Or.inl ((mem_sRemove _ _ _).mp h).1
    · exact Or.inr rfl
  · exact Or.inl h

theorem mem_fixupHfq_elim (l : List String) (y : String)
    (h : y ∈ fixupHfq l) : y ∈ l ∨ y = "price_change_hfq" := by
  unfold fixupHfq at h
  split at h
  · rcases (mem_sInsert _ _ _).mp h with h | rfl
    · exact Or.inl ((mem_sRemove _ _ _).mp h).1
    · exact Or.inr rfl
  · exact Or.inl h

theorem fixupQfq_keeps (l : List String) (y : String) (hy : y ∈ l)
    (hne : y ≠ "change_qfq") : y ∈ fixupQfq l := by
  unfold fixupQfq
  split
  · exact (mem_sInsert _ _ _).mpr (Or.inl ((mem_sRemove _ _ _).mpr ⟨hy, hne⟩))
  · exact hy

theorem fixupHfq_keeps (l : List String) (y : String) (hy : y ∈ l)
    (hne : y ≠ "change_hfq") : y ∈ fixupHfq l := by
  unfold fixupHfq
  split
  · exact (mem_sInsert _ _ _).mpr (Or.inl ((mem_sRemove _ _ _).mpr ⟨hy, hne⟩))
  · exact hy

theorem fixupQfq_gains (l : List String) (h : "change_qfq" ∈ l) :
    "price_change_qfq" ∈ fixupQfq l := by
  unfold fixupQfq
  rw [if_pos h]
  exact (mem_sInsert _ _ _).mpr (Or.inr rfl)

theorem fixupHfq_gains (l : List String) (h : "change_hfq" ∈ l) :
    "price_change_hfq" ∈ fixupHfq l := by
  unfold fixupHfq
  rw [if_pos h]
  exact (mem_sInsert _ _ _).mpr (Or.inr rfl)

/-- The per-field renaming never outputs the bare names `change` or
`pre_close`: both belong to every `targets` list, so they always leave
with a suffix. -/
theorem queryMapped_ne_bare (q : FLQuery) (f : String) :
    queryMapped q f ≠ "change" ∧ queryMapped q f ≠ "pre_close" := by
  unfold queryMapped
  by_cases hadj : q.adj = some "qfq" ∨ q.adj = some "hfq"
  · rw [if_pos hadj]
    by_cases hf : f ∈ adjTargets
    · rw [if_pos hf]
      have hsuf : q.adj.getD "" = "qfq" ∨ q.adj.getD "" = "hfq" := by
        rcases hadj with h | h <;> rw [h] <;> simp
      simp only [adjTargets, List.mem_cons, List.not_mem_nil, or_false] at hf
      rcases hsuf with hs | hs <;> rw [hs] <;>
        rcases hf with rfl | rfl | rfl | rfl | rfl | rfl <;>
        exact ⟨by decide, by decide⟩
    · rw [if_neg hf]
      constructor <;> rintro rfl <;> exact hf (by decide)
  · rw [if_neg hadj]
    by_cases hf : f ∈ noAdjTargets
    · rw [if_pos hf]
      simp only [noAdjTargets, List.mem_cons, List.not_mem_nil, or_false] at hf
      rcases hf with rfl | rfl <;> exact ⟨by decide, by decide⟩
    · rw [if_neg hf]
      constructor <;> rintro rfl <;> exact hf (by decide)

theorem process_not_bare (acc : List String) (q : FLQuery)
    (h1 : "change" ∉ acc) (h2 : "pre_close" ∉ acc) :
    "change" ∉ processQueryFields acc q ∧
    "pre_close" ∉ processQueryFields acc q := by
  constructor <;> intro hmem
  · rcases mem_fixupHfq_elim _ _ hmem with hmem | habs
    · rcases mem_fixupQfq_elim _ _ hmem with hmem | habs
      · rcases (mem_sUpdate _ _ _).mp hmem with hmem | hmem
        · exact h1 hmem
        · obtain ⟨f, _, hf⟩ := List.mem_map.mp hmem
          exact (queryMapped_ne_bare q f).1 hf
      · exact absurd habs (by decide)
    · exact absurd habs (by decide)
  · rcases mem_fixupHfq_elim _ _ hmem with hmem | habs
    · rcases mem_fixupQfq_elim _ _ hmem with hmem | habs
      · rcases (mem_sUpdate _ _ _).mp hmem with hmem | hmem
        · exact h2 hmem
        · obtain ⟨f, _, hf⟩ := List.mem_map.mp hmem
          exact (queryMapped_ne_bare q f).2 hf
      · exact absurd habs (by decide)
    · exact absurd habs (by decide)

theorem process_keeps (acc : List String) (q : FLQuery) (y : String)
    (hy : y ∈ acc) (h1 : y ≠ "change_qfq") (h2 : y ≠ "change_hfq") :
    y ∈ processQueryFields acc q :=
  fixupHfq_keeps _ _
    (fixupQfq_keeps _ _ ((mem_sUpdate _ _ _).mpr (Or.inl hy)) h1) h2

theorem process_gains_noadj (acc : List String) (q : FLQuery)
    (hadj : q.adj = none) (hc : "change" ∈ fieldsList q)
    (hp : "pre_close" ∈ fieldsList q) :
    "price_change_qfq" ∈ processQueryFields acc q ∧
    "pre_close_qfq" ∈ processQueryFields acc q := by
  have hmc : queryMapped q "change" = "change_qfq" := by
    unfold queryMapped
    rw [hadj]
    decide
  have hmp : queryMapped q "pre_close" = "pre_close_qfq" := by
    unfold queryMapped
    rw [hadj]
    decide
  have hacc1c : "change_qfq" ∈ sUpdate acc ((fieldsList q).map (queryMapped q)) :=
    (mem_sUpdate _ _ _).mpr (Or.inr (List.mem_map.mpr ⟨"change", hc, hmc⟩))
  have hacc1p : "pre_close_qfq" ∈ sUpdate acc ((fieldsList q).map (queryMapped q)) :=
    (mem_sUpdate _ _ _).mpr (Or.inr (List.mem_map.mpr ⟨"pre_close", hp, hmp⟩))
  constructor
  · exact fixupHfq_keeps _ _ (fixupQfq_gains _ hacc1c) (by decide)
  · exact fixupHfq_keeps _ _ (fixupQfq_keeps _ _ hacc1p (by decide)) (by decide)

theorem process_gains_qfq (acc : List String) (q : FLQuery)
    (hadj : q.adj = some "qfq") (hc : "change" ∈ fieldsList q) :
    "price_change_qfq" ∈ processQueryFields acc q := by
  have hmc : queryMapped q "change" = "change_qfq" := by
    unfold queryMapped
    rw [hadj]
    decide
  have hacc1c : "change_qfq" ∈ sUpdate acc ((fieldsList q).map (queryMapped q)) :=
    (mem_sUpdate _ _ _).mpr (Or.inr (List.mem_map.mpr ⟨"change", hc, hmc⟩))
  exact fixupHfq_keeps _ _ (fixupQfq_gains _ hacc1c) (by decide)

theorem process_gains_hfq (acc : List String) (q : FLQuery)
    (hadj : q.adj = some "hfq") (hc : "change" ∈ fieldsList q) :
    "price_change_hfq" ∈ processQueryFields acc q := by
  have hmc : queryMapped q "change" = "change_hfq" := by
    unfold queryMapped
    rw [hadj]
    decide
  have hacc1h : "change_hfq" ∈ sUpdate acc ((fieldsList q).map (queryMapped q)) :=
    (mem_sUpdate _ _ _).mpr (Or.inr (List.mem_map.mpr ⟨"change", hc, hmc⟩))
  have hacc2 : "change_hfq" ∈ fixupQfq (sUpdate acc ((fieldsList q).map (queryMapped q))) :=
    fixupQfq_keeps _ _ hacc1h (by decide)
  exact fixupHfq_gains _ hacc2

theorem foldl_process_not_bare (queries : List FLQuery) :
    ∀ acc : List String, "change" ∉ acc → "pre_close" ∉ acc →
      "change" ∉ queries.foldl processQueryFields acc ∧
      "pre_close" ∉ queries.foldl processQueryFields acc := by
  induction queries with
  | nil => exact fun acc h1 h2 => ⟨h1, h2⟩
  | cons q qs ih =>
    intro acc h1 h2
    rw [List.foldl_cons]
    obtain ⟨h1q, h2q⟩ := process_not_bare acc q h1 h2
    exact ih _ h1q h2q

theorem foldl_process_keeps (queries : List FLQuery) :
    ∀ (acc : List String) (y : String), y ∈ acc → y ≠ "change_qfq" →
      y ≠ "change_hfq" → y ∈ queries.foldl processQueryFields acc := by
  induction queries with
  | nil => exact fun _ _ hy _ _ => hy
  | cons q qs ih =>
    intro acc y hy h1 h2
    rw [List.foldl_cons]
    exact ih _ y (process_keeps acc q y hy h1 h2) h1 h2

/-- **C9**: `FactorBase.fetch_data` never queries the long store for
the bare field names `change` or `pre_close`.  With an adjustment mode
the field `change` becomes `price_change_qfq`/`price_change_hfq`; even
with no adjustment mode, `change` and `pre_close` are silently remapped
to the `_qfq`-suffixed names before the store query, so unadjusted
values for these two fields are unreachable through this interface. -/
theorem change_unreachable_in_fetch_data (queries : List FLQuery)
    (q : FLQuery) (hq : q ∈ queries) :
    ("change" ∉ allFieldsNeeded queries ∧
     "pre_close" ∉ allFieldsNeeded queries) ∧
    (q.adj = none → "change" ∈ fieldsList q → "pre_close" ∈ fieldsList q →
      "price_change_qfq" ∈ allFieldsNeeded queries ∧
      "pre_close_qfq" ∈ allFieldsNeeded queries) ∧
    (q.adj = some "qfq" → "change" ∈ fieldsList q →
      "price_change_qfq" ∈ allFieldsNeeded queries) ∧
    (q.adj = some "hfq" → "change" ∈ fieldsList q →
      "price_change_hfq" ∈ allFieldsNeeded queries) := by
  obtain ⟨l1, l2, rfl⟩ := List.append_of_mem hq
  have hsplit : allFieldsNeeded (l1 ++ q :: l2) =
      List.foldl processQueryFields
        (processQueryFields (List.foldl processQueryFields [] l1) q) l2 := by
    unfold allFieldsNeeded
    rw [List.foldl_append, List.foldl_cons]
  refine ⟨foldl_process_not_bare (l1 ++ q :: l2) [] (by simp) (by simp),
    ?_, ?_, ?_⟩
  · intro hadj hc hp
    rw [hsplit]
    obtain ⟨g1, g2⟩ :=
      process_gains_noadj (List.foldl processQueryFields [] l1) q hadj hc hp
    exact ⟨foldl_process_keeps l2 _ _ g1 (by decide) (by decide),
           foldl_process_keeps l2 _ _ g2 (by decide) (by decide)⟩
  · intro hadj hc
    rw [hsplit]
    exact foldl_process_keeps l2 _ _
      (process_gains_qfq _ q hadj hc) (by decide) (by decide)
  · intro hadj hc
    rw [hsplit]
    exact foldl_process_keeps l2 _ _
      (process_gains_hfq _ q hadj hc) (by decide) (by decide)

/-- Witness instantiating `change_unreachable_in_fetch_data` on a
one-query request for `{close, change, pre_close}` with no adjustment. -/
theorem change_unreachable_witness :
    c9Query ∈ [c9Query] ∧
    (("change" ∉ allFieldsNeeded [c9Query] ∧
      "pre_close" ∉ allFieldsNeeded [c9Query]) ∧
     (c9Query.adj = none → "change" ∈ fieldsList c9Query →
        "pre_close" ∈ fieldsList c9Query →
        "price_change_qfq" ∈ allFieldsNeeded [c9Query] ∧
        "pre_close_qfq" ∈ allFieldsNeeded [c9Query]) ∧
     (c9Query.adj = some "qfq" → "change" ∈ fieldsList c9Query →
        "price_change_qfq" ∈ allFieldsNeeded [c9Query]) ∧
     (c9Query.adj = some "hfq" → "change" ∈ fieldsList c9Query →
        "price_change_hfq" ∈ allFieldsNeeded [c9Query])) :=
  ⟨List.mem_singleton.mpr rfl,
   change_unreachable_in_fetch_data [c9Query] c9Query
     (List.mem_singleton.mpr rfl)⟩

/-- **C10**: `save_to_db` never hands a null factor value to the
upsert: empty computations (before or after cleaning) produce no write
at all, and every row of a frame that is written has a non-null,
non-NaN `factor_value`. -/
theorem saveToDb_no_null (fname : String) (w : FWide) :
    (∀ df, saveToDb fname w = some df →
      df ≠ [] ∧ ∀ r ∈ df, r.factor_value.isNA = false) ∧
    (w.isEmpty = true → saveToDb fname w = none) := by
  constructor
  · intro df hdf
    unfold saveToDb at hdf
    split at hdf
    · exact Option.noConfusion hdf
    · simp only at hdf
      split at hdf
      · exact Option.noConfusion hdf
      · next hne =>
        obtain rfl := Option.some.inj hdf
        constructor
        · intro habs
          rw [habs] at hne
          exact hne rfl
        · intro r hr
          have := (List.mem_filter.mp hr).2
          revert this
          cases r.factor_value.isNA <;> simp
  · intro hemp
    unfold saveToDb
    rw [hemp]
    simp

/-- Witness instantiating `saveToDb_no_null` at a concrete frame. -/
theorem saveToDb_no_null_witness :
    saveToDb "pe" wSample =
      some [⟨"A", "20240101", "pe", Value.num 1⟩] ∧
    ([(⟨"A", "20240101", "pe", Value.num 1⟩ : NarrowFactorRow)] ≠ [] ∧
      ∀ r ∈ [(⟨"A", "20240101", "pe", Value.num 1⟩ : NarrowFactorRow)],
        r.factor_value.isNA = false) :=
  ⟨by decide, (saveToDb_no_null "pe" wSample).1 _ (by decide)⟩

theorem mem_dedupAppend_aux {α : Type} [DecidableEq α] (l : List α) :
    ∀ (acc : List α) (x : α),
      x ∈ l.foldl (fun acc x => if x ∈ acc then acc else acc ++ [x]) acc ↔
        x ∈ acc ∨ x ∈ l := by
  induction l with
  | nil => simp
  | cons a l ih =>
    intro acc x
    rw [List.foldl_cons, ih]
    by_cases ha : a ∈ acc
    · rw [if_pos ha]
      simp only [List.mem_cons]
      constructor
      · rintro (h | h)
        · exact Or.inl h
        · exact Or.inr (Or.inr h)
      · rintro (h | rfl | h)
        · exact Or.inl h
        · exact Or.inl ha
        · exact Or.inr h
    · rw [if_neg ha]
      simp only [List.mem_append, List.mem_singleton, List.mem_cons]
      tauto

theorem mem_dedupAppend {α : Type} [DecidableEq α] (l : List α) (x : α) :
    x ∈ dedupAppend l ↔ x ∈ l := by
  unfold dedupAppend
  rw [mem_dedupAppend_aux]
  simp

theorem codes_pivotWide (rs : List NarrowRec) :
    (pivotWide rs).codes =
      (dedupAppend (rs.map (fun r => (r.trade_date, r.ts_code)))).map
        (fun k => k.2) := by
  unfold pivotWide WideFrame.codes
  rw [List.map_map]
  rfl

theorem mem_codes_pivotWide (rs : List NarrowRec) (c : String) :
    c ∈ (pivotWide rs).codes ↔ ∃ r ∈ rs, r.ts_code = c := by
  rw [codes_pivotWide]
  constructor
  · intro h
    obtain ⟨k, hk, hkc⟩ := List.mem_map.mp h
    rw [mem_dedupAppend] at hk
    obtain ⟨r, hr, hrk⟩ := List.mem_map.mp hk
    refine ⟨r, hr, ?_⟩
    rw [← hkc, ← hrk]
  · rintro ⟨r, hr, rfl⟩
    refine List.mem_map.mpr ⟨(r.trade_date, r.ts_code), ?_, rfl⟩
    rw [mem_dedupAppend]
    exact List.mem_map.mpr ⟨r, hr, rfl⟩

theorem mem_codes_dbWide (env : GapEnv) (c : String) :
    c ∈ (dbWide env).codes ↔ ∃ r ∈ env.dbQuery.getD [], r.ts_code = c := by
  cases hdb : env.dbQuery with
  | none => simp [dbWide, hdb, WideFrame.codes]
  | some rs =>
    by_cases hrs : rs.isEmpty = true
    · rw [List.isEmpty_iff] at hrs
      subst hrs
      simp [dbWide, hdb, WideFrame.codes]
    · have hw : dbWide env = pivotWide rs := by
        unfold dbWide
        rw [hdb]
        show (if rs.isEmpty = true then (⟨[]⟩ : WideFrame) else pivotWide rs) =
          pivotWide rs
        rw [if_neg hrs]
      rw [hw]
      simp only [Option.getD_some]
      exact mem_codes_pivotWide rs c

theorem missing_eq_zeroPresence (env : GapEnv) (codes : List String) :
    (dedupAppend codes).filter (fun c => c ∉ (dbWide env).codes) =
      zeroPresence env codes := by
  unfold zeroPresence
  apply List.filter_congr
  intro c _
  by_cases h : c ∈ (dbWide env).codes
  · obtain ⟨r, hr, hrc⟩ := (mem_codes_dbWide env c).mp h
    have hany : (env.dbQuery.getD []).any (fun r => r.ts_code = c) = true :=
      List.any_eq_true.mpr ⟨r, hr, by simp [hrc]⟩
    simp [h, hany]
  · have hany : (env.dbQuery.getD []).any (fun r => r.ts_code = c) = false := by
      rw [Bool.eq_false_iff]
      intro habs
      obtain ⟨r, hr, hrc⟩ := List.any_eq_true.mp habs
      simp only [decide_eq_true_eq] at hrc
      exact h ((mem_codes_dbWide env c).mpr ⟨r, hr, hrc⟩)
    simp [h, hany]

theorem codes_append (a b : List ((String × String) × List (String × Value))) :
    (WideFrame.mk (a ++ b)).codes =
      (WideFrame.mk a).codes ++ (WideFrame.mk b).codes := by
  unfold WideFrame.codes
  simp

theorem fetchData_eq_noMissing (env : GapEnv) (queries : List FLQuery)
    (codes : List String)
    (hnk : (queries.any fun q => q.fields.isNone) = false)
    (hmz : ((dedupAppend codes).filter
      (fun c => c ∉ (dbWide env).codes)).isEmpty = true) :
    fetchData env queries codes =
      { calls := [],
        result := .ok (if (dbWide env).isEmpty then ⟨[]⟩ else dbWide env) } := by
  unfold fetchData
  simp only [hnk, Bool.false_eq_true, if_false, hmz, if_true]

theorem fetchData_eq_fetchNone (env : GapEnv) (queries : List FLQuery)
    (codes : List String)
    (hnk : (queries.any fun q => q.fields.isNone) = false)
    (hmz : ((dedupAppend codes).filter
      (fun c => c ∉ (dbWide env).codes)).isEmpty = false)
    (hfr : env.fetchResult = none) :
    fetchData env queries codes =
      { calls := [(dedupAppend codes).filter (fun c => c ∉ (dbWide env).codes)],
        result := .error "AttributeError: NoneType has no attribute empty" } := by
  unfold fetchData
  simp only [hnk, Bool.false_eq_true, if_false, hmz, hfr]

theorem fetchData_eq_fetchEmpty (env : GapEnv) (queries : List FLQuery)
    (codes : List String) (onlineRs : List NarrowRec)
    (hnk : (queries.any fun q => q.fields.isNone) = false)
    (hmz : ((dedupAppend codes).filter
      (fun c => c ∉ (dbWide env).codes)).isEmpty = false)
    (hfr : env.fetchResult = some onlineRs) (hoe : onlineRs.isEmpty = true) :
    fetchData env queries codes =
      { calls := [(dedupAppend codes).filter (fun c => c ∉ (dbWide env).codes)],
        result := .ok (if (dbWide env).isEmpty then ⟨[]⟩ else dbWide env) } := by
  unfold fetchData
  simp only [hnk, Bool.false_eq_true, if_false, hmz, hfr, hoe, if_true]

theorem fetchData_eq_fetchSome (env : GapEnv) (queries : List FLQuery)
    (codes : List String) (onlineRs : List NarrowRec)
    (hnk : (queries.any fun q => q.fields.isNone) = false)
    (hmz : ((dedupAppend codes).filter
      (fun c => c ∉ (dbWide env).codes)).isEmpty = false)
    (hfr : env.fetchResult = some onlineRs) (hoe : onlineRs.isEmpty = false) :
    fetchData env queries codes =
      { calls := [(dedupAppend codes).filter (fun c => c ∉ (dbWide env).codes)],
        result := .ok
          (if (WideFrame.mk ((dbWide env).keyRows ++ (pivotWide onlineRs).keyRows)).isEmpty
           then ⟨[]⟩
           else ⟨(dbWide env).keyRows ++ (pivotWide onlineRs).keyRows⟩) } := by
  unfold fetchData
  simp only [hnk, Bool.false_eq_true, if_false, hmz, hfr, hoe]

/-- A frame whose codes list is inhabited is not empty. -/
theorem wideFrame_ne_empty_of_code (w : WideFrame) (c : String)
    (h : c ∈ w.codes) : w.isEmpty = false := by
  unfold WideFrame.isEmpty
  unfold WideFrame.codes at h
  cases hk : w.keyRows with
  | nil => rw [hk] at h; simp at h
  | cons a l => simp

/-- **C2: symbol-level gap-fill partition.**  A requested symbol counts
as found when it appears at least once in the store query result (even
for only some fields or dates); exactly the symbols with zero presence
are fetched online, in a single fetch; and the returned wide frame has
rows for every requested symbol wherever data exists, from the store or
from the fresh fetch. -/
theorem gap_fill_partition (env : GapEnv) (queries : List FLQuery)
    (codes : List String)
    (hfields : queries.all (fun q => q.fields.isSome) = true)
    (hfetch : env.fetchResult ≠ none) :
    ((fetchData env queries codes).calls =
      if (zeroPresence env codes).isEmpty then []
      else [zeroPresence env codes]) ∧
    ∃ w : WideFrame, (fetchData env queries codes).result = .ok w ∧
      ∀ c ∈ codes,
        (((env.dbQuery.getD []).any (fun r => r.ts_code = c)) = true →
          c ∈ w.codes) ∧
        ((env.fetchResult.getD []).any (fun r => r.ts_code = c) = true →
          zeroPresence env codes ≠ [] → c ∈ w.codes) := by
  have hnk : (queries.any fun q => q.fields.isNone) = false := by
    rw [Bool.eq_false_iff]
    intro habs
    obtain ⟨q, hq, hqn⟩ := List.any_eq_true.mp habs
    have := List.all_eq_true.mp hfields q hq
    revert this hqn
    cases q.fields <;> simp
  have hdbmem : ∀ c, ((env.dbQuery.getD []).any (fun r => r.ts_code = c)) = true →
      c ∈ (dbWide env).codes := by
    intro c hc
    obtain ⟨r, hr, hrc⟩ := List.any_eq_true.mp hc
    simp only [decide_eq_true_eq] at hrc
    exact (mem_codes_dbWide env c).mpr ⟨r, hr, hrc⟩
  by_cases hmz : ((dedupAppend codes).filter
      (fun c => c ∉ (dbWide env).codes)).isEmpty = true
  · have hmz' : (zeroPresence env codes).isEmpty = true := by
      rw [← missing_eq_zeroPresence]
      exact hmz
    rw [fetchData_eq_noMissing env queries codes hnk hmz]
    refine ⟨by rw [hmz']; rfl, _, rfl, ?_⟩
    intro c _
    refine ⟨?_, ?_⟩
    · intro hc
      have hmem := hdbmem c hc
      rw [wideFrame_ne_empty_of_code _ _ hmem]
      simpa using hmem
    · intro _ habs
      rw [← missing_eq_zeroPresence] at habs
      rw [List.isEmpty_iff] at hmz
      exact absurd hmz habs
  · have hmzf : ((dedupAppend codes).filter
        (fun c => c ∉ (dbWide env).codes)).isEmpty = false := by
      revert hmz
      cases ((dedupAppend codes).filter
        (fun c => c ∉ (dbWide env).codes)).isEmpty <;> simp
    have hmz' : (zeroPresence env codes).isEmpty = false := by
      rw [← missing_eq_zeroPresence]
      exact hmzf
    cases hfr : env.fetchResult with
    | none => exact absurd hfr hfetch
    | some onlineRs =>
      by_cases hoe : onlineRs.isEmpty = true
      · rw [fetchData_eq_fetchEmpty env queries codes onlineRs hnk hmzf hfr hoe]
        refine ⟨by rw [hmz', missing_eq_zeroPresence]; rfl, _, rfl, ?_⟩
        intro c _
        refine ⟨?_, ?_⟩
        · intro hc
          have hmem := hdbmem c hc
          rw [wideFrame_ne_empty_of_code _ _ hmem]
          simpa using hmem
        · intro hon _
          rw [List.isEmpty_iff] at hoe
          subst hoe
          simp at hon
      · have hoe' : onlineRs.isEmpty = false := by
          revert hoe
          cases onlineRs.isEmpty <;> simp
        rw [fetchData_eq_fetchSome env queries codes onlineRs hnk hmzf hfr hoe']
        refine ⟨by rw [hmz', missing_eq_zeroPresence]; rfl, _, rfl, ?_⟩
        intro c _
        have hmerged : c ∈ (WideFrame.mk ((dbWide env).keyRows ++
            (pivotWide onlineRs).keyRows)).codes →
            c ∈ (if (WideFrame.mk ((dbWide env).keyRows ++
              (pivotWide onlineRs).keyRows)).isEmpty
             then (⟨[]⟩ : WideFrame)
             else ⟨(dbWide env).keyRows ++ (pivotWide onlineRs).keyRows⟩).codes := by
          intro hmem
          rw [wideFrame_ne_empty_of_code _ _ hmem]
          simpa using hmem
        refine ⟨?_, ?_⟩
        · intro hc
          apply hmerged
          rw [codes_append]
          exact List.mem_append.mpr (Or.inl (hdbmem c hc))
        · intro hon _
          simp only [Option.getD_some] at hon
          obtain ⟨r, hr, hrc⟩ := List.any_eq_true.mp hon
          simp only [decide_eq_true_eq] at hrc
          apply hmerged
          rw [codes_append]
          exact List.mem_append.mpr
            (Or.inr ((mem_codes_pivotWide onlineRs c).mpr ⟨r, hr, hrc⟩))

/-- Witness instantiating `gap_fill_partition` on the `{A,B}` store /
`{A,B,C}` request scenario. -/
theorem gap_fill_partition_witness :
    ([c9Query].all (fun q => q.fields.isSome) = true) ∧
    gapEnvSample.fetchResult ≠ none ∧
    (((fetchData gapEnvSample [c9Query] ["A", "B", "C"]).calls =
      if (zeroPresence gapEnvSample ["A", "B", "C"]).isEmpty then []
      else [zeroPresence gapEnvSample ["A", "B", "C"]]) ∧
    ∃ w : WideFrame,
      (fetchData gapEnvSample [c9Query] ["A", "B", "C"]).result = .ok w ∧
      ∀ c ∈ ["A", "B", "C"],
        (((gapEnvSample.dbQuery.getD []).any (fun r => r.ts_code = c)) = true →
          c ∈ w.codes) ∧
        ((gapEnvSample.fetchResult.getD []).any (fun r => r.ts_code = c) = true →
          zeroPresence gapEnvSample ["A", "B", "C"] ≠ [] → c ∈ w.codes)) :=
  ⟨by decide, by decide,
   gap_fill_partition gapEnvSample [c9Query] ["A", "B", "C"]
     (by decide) (by decide)⟩

/-- **C6 (evaluating the code at the failing input)**: when the store
query fails (treated as zero rows, so all symbols are fetched online)
and the online fetcher itself fails internally, `fetch()`'s
`@logger.catch` makes it return `None`, and `fetch_data` then raises
`AttributeError` at `df_online_narrow.empty` — the exception escapes to
the caller instead of an empty frame being returned. -/
theorem fetchData_raises_when_fetcher_fails :
    (fetchData gapEnvDown [] ["A"]).result =
      .error "AttributeError: NoneType has no attribute empty" ∧
    (fetchData gapEnvDown [] ["A"]).calls = [["A"]] :=
  ⟨rfl, rfl⟩

theorem oldestOf_eq_minD (env : ReconEnv) (code : String)
    (hc : code ∈ qfqChanged env) :
    oldestOf env code = minD (datesOf env.storeRows code) := by
  have hex : ∃ g ∈ activeStocks env, g.1 = code := by
    obtain ⟨g, hg, hgc⟩ := List.mem_map.mp hc
    exact ⟨g, List.mem_of_mem_filter hg, hgc⟩
  have hfind : ∃ g0, (activeStocks env).find? (fun g => g.1 = code) = some g0 := by
    cases hf : (activeStocks env).find? (fun g => g.1 = code) with
    | some g0 => exact ⟨g0, rfl⟩
    | none =>
      obtain ⟨g, hg, hgc⟩ := hex
      have := List.find?_eq_none.mp hf g hg
      simp [hgc] at this
  obtain ⟨g0, hg0⟩ := hfind
  have hg0p : g0.1 = code := by
    have := List.find?_some hg0
    simpa using this
  have hg0grp : g0 ∈ groupDates env.storeRows :=
    List.mem_of_mem_filter (List.mem_of_find?_eq_some hg0)
  obtain ⟨c0, _, hg0eq⟩ := List.mem_map.mp hg0grp
  have hc0 : c0 = code := by
    rw [← hg0p, ← hg0eq]
  have hmin : g0.2.1 = minD (datesOf env.storeRows code) := by
    rw [← hg0eq, ← hc0]
  unfold oldestOf
  rw [hg0]
  exact hmin

/-- **C3: adjustment drift triggers a full-history refresh, never an
incremental patch.**  Every drifted symbol gets a forward-adjusted
refetch whose range runs from the symbol's oldest stored date to today;
every refetch issued for it has exactly that range; and the refetched
history is upserted keyed by `(ts_code, trade_date)` with the
adjustable columns renamed onto their `_qfq` counterparts — a full
overwrite of the adjustable columns. -/
theorem drift_triggers_full_refresh (env : ReconEnv) (code : String)
    (hc : code ∈ qfqChanged env) :
    (⟨code, minD (datesOf env.storeRows code), env.today, "qfq", qfqFields⟩
      ∈ refreshCalls env) ∧
    (∀ call ∈ refreshCalls env, call.ts_code = code →
      call.start_date = minD (datesOf env.storeRows code) ∧
      call.end_date = env.today ∧ call.adj = "qfq") ∧
    qfqFields.map renameQfqCol =
      ["ts_code", "trade_date", "open_qfq", "high_qfq", "low_qfq",
       "close_qfq", "price_change_qfq", "pre_close_qfq"] ∧
    refreshPrimaryKey = ["ts_code", "trade_date"] := by
  have holdest := oldestOf_eq_minD env code hc
  refine ⟨?_, ?_, by decide, rfl⟩
  · refine List.mem_map.mpr ⟨code, hc, ?_⟩
    rw [holdest]
  · intro call hcall hcode
    obtain ⟨code', hcode', hceq⟩ := List.mem_map.mp hcall
    have : code' = code := by
      rw [← hcode, ← hceq]
    subst this
    rw [← hceq]
    exact ⟨holdest.symm ▸ rfl, rfl, rfl⟩

/-- Witness instantiating `drift_triggers_full_refresh` on the drifted
symbol `X`. -/
theorem drift_triggers_full_refresh_witness :
    "X" ∈ qfqChanged reconEnvSample ∧
    ((⟨"X", minD (datesOf reconEnvSample.storeRows "X"),
        reconEnvSample.today, "qfq", qfqFields⟩ ∈ refreshCalls reconEnvSample) ∧
    (∀ call ∈ refreshCalls reconEnvSample, call.ts_code = "X" →
      call.start_date = minD (datesOf reconEnvSample.storeRows "X") ∧
      call.end_date = reconEnvSample.today ∧ call.adj = "qfq") ∧
    qfqFields.map renameQfqCol =
      ["ts_code", "trade_date", "open_qfq", "high_qfq", "low_qfq",
       "close_qfq", "price_change_qfq", "pre_close_qfq"] ∧
    refreshPrimaryKey = ["ts_code", "trade_date"]) :=
  ⟨by decide, drift_triggers_full_refresh reconEnvSample "X" (by decide)⟩

/-- The integer comparison in `isClose` is exactly `np.isclose`'s
default criterion `|a - b| ≤ 1e-8 + 1e-5 * |b|`, stated over `ℚ`. -/
theorem isClose_iff (a b : ℚ) :
    isClose a b = true ↔ |a - b| ≤ 1 / 100000000 + |b| / 100000 := by
  unfold isClose
  rw [decide_eq_true_eq]
  have hda : (0:ℚ) < (a.den : ℚ) := by exact_mod_cast a.den_pos
  have hdb : (0:ℚ) < (b.den : ℚ) := by exact_mod_cast b.den_pos
  have hsub : a - b =
      ((a.num * (b.den : Int) - b.num * (a.den : Int) : Int) : ℚ) /
        ((a.den : ℚ) * (b.den : ℚ)) := by
    rw [eq_div_iff (by positivity)]
    push_cast
    nth_rewrite 1 [← Rat.num_div_den a]
    nth_rewrite 1 [← Rat.num_div_den b]
    field_simp
    ring
  have habs : |a - b| =
      ((((a.num * (b.den : Int) - b.num * (a.den : Int)).natAbs : Int) : ℚ)) /
        ((a.den : ℚ) * (b.den : ℚ)) := by
    rw [hsub, abs_div, abs_of_pos (mul_pos hda hdb), ← Int.cast_abs,
      Int.abs_eq_natAbs]
  have hbeq : b = ((b.num : ℚ)) / (b.den : ℚ) := (Rat.num_div_den b).symm
  have hb : |b| = (((b.num.natAbs : Int) : ℚ)) / (b.den : ℚ) := by
    nth_rewrite 1 [hbeq]
    rw [abs_div, abs_of_pos hdb, ← Int.cast_abs, Int.abs_eq_natAbs]
  have htol : 1 / 100000000 + |b| / 100000 =
      (((b.den : Int) + (b.num.natAbs : Int) * 1000 : Int) : ℚ) /
        ((b.den : ℚ) * 100000000) := by
    rw [hb]
    push_cast
    field_simp
    ring
  rw [habs, htol, div_le_div_iff₀ (mul_pos hda hdb) (by positivity)]
  constructor
  · intro h
    have h2 : ((((a.num * (b.den : Int) - b.num * (a.den : Int)).natAbs : Int) *
        ((b.den : Int) * 100000000) : Int) : ℚ) ≤
        ((((b.den : Int) + (b.num.natAbs : Int) * 1000) *
          ((a.den : Int) * (b.den : Int)) : Int) : ℚ) := by exact_mod_cast h
    push_cast at h2 ⊢
    nlinarith [h2]
  · intro h
    have h2 : ((((a.num * (b.den : Int) - b.num * (a.den : Int)).natAbs : Int) *
        ((b.den : Int) * 100000000) : Int) : ℚ) ≤
        ((((b.den : Int) + (b.num.natAbs : Int) * 1000) *
          ((a.den : Int) * (b.den : Int)) : Int) : ℚ) := by
      push_cast at h ⊢
      nlinarith [h]
    exact_mod_cast h2

/-- If one query of the per-symbol loop raises, the whole loop
raises. -/
theorem dailyInner_error (env : FetchEnv) (code : String)
    (qs : List FQuery) (q : FQuery) (hq : q ∈ qs) (e : String)
    (he : dailyLongFor env code q = .error e) :
    ∃ e2, dailyInner env code qs = .error e2 := by
  induction qs with
  | nil => cases hq
  | cons p ps ih =>
    rcases List.mem_cons.mp hq with rfl | hmem
    · exact ⟨e, by simp [dailyInner, he]⟩
    · cases hd : dailyLongFor env code p with
      | error e3 => exact ⟨e3, by simp [dailyInner, hd]⟩
      | ok rs =>
        obtain ⟨e2, h2⟩ := ih hmem
        exact ⟨e2, by simp [dailyInner, hd, h2]⟩

/-- C7: refuted as stated.  `fields='revenue'` has no `end_date`
substring, so the income query is routed to the DAILY branch, where
`set_index(['ts_code', 'trade_date'])` raises on the trade_date-less
report frame; `@logger.catch` then turns the WHOLE fetch into `None`.
The endpoint is not merely dropped with a warning: without the bad
query the batch returns the other endpoint's rows, with it the entire
batch — good endpoints included — is lost. -/
theorem periodic_without_end_date_aborts_batch :
    fetcherFetch c7Env = none ∧
    fetcherFetch c7EnvGood =
      some [(Value.str "A", Value.str "20240101", "close",
        Value.num 10)] :=
  ⟨rfl, rfl⟩

/-- C7 (amended): a periodic-report query whose `fields` omit
`end_date` is classified as a daily time-series query; whenever the
provider's frame for it lacks the `trade_date` column (for every
requested symbol — the first already suffices), the daily loop raises
and the whole fetch, every endpoint of the batch included, returns
`None`. -/
theorem no_end_date_periodic_aborts (env : FetchEnv) (q : FQuery)
    (hq : q ∈ env.queries) (hapi : isExtraApi q = false)
    (hann : isAnnQuery q = false) (hcodes : env.codes ≠ [])
    (hbad : ∀ code ∈ env.codes,
      "trade_date" ∉ dedupAppend (env.dailyResp code q).cols) :
    fetcherFetch env = none := by
  have hqd : q ∈ dailyQs env := by
    unfold dailyQs
    exact List.mem_filter.mpr ⟨hq, by simp [hapi, hann]⟩
  obtain ⟨c0, cs, hc⟩ := List.exists_cons_of_ne_nil hcodes
  have hbad0 : "trade_date" ∉ dedupAppend (env.dailyResp c0 q).cols :=
    hbad c0 (by rw [hc]; exact List.mem_cons_self c0 cs)
  have herr : dailyLongFor env c0 q = .error "KeyError" := by
    unfold dailyLongFor
    exact if_neg (fun h => hbad0 h.2)
  obtain ⟨e2, hinner⟩ :=
    dailyInner_error env c0 (dailyQs env) q hqd "KeyError" herr
  have houter : dailyOuter env (dailyQs env) env.codes = .error e2 := by
    rw [hc]
    simp [dailyOuter, hinner]
  have hdq : (dailyQs env).isEmpty = false := by
    cases hdqv : dailyQs env with
    | nil => rw [hdqv] at hqd; cases hqd
    | cons p ps => rfl
  have hcne : env.codes.isEmpty = false := by
    cases hcv : env.codes with
    | nil => exact absurd hcv hcodes
    | cons p ps => rfl
  have hphase : dailyPhase env = .error e2 := by
    unfold dailyPhase
    rw [hdq, hcne]
    simp [houter]
  unfold fetcherFetch fetchE
  cases hE : extraPhase env with
  | error e => rfl
  | ok eR =>
    cases hA : annPhase env with
    | error e => rfl
    | ok aR =>
      rw [hphase]
      rfl

/-- `no_end_date_periodic_aborts` at the concrete footgun batch. -/
theorem no_end_date_periodic_aborts_witness :
    fetcherFetch c7Env = none :=
  no_end_date_periodic_aborts c7Env c7BadQuery (by decide) (by decide)
    (by decide) (by decide) (by decide)

/-- C8: refuted as stated.  The code's rename target set (line 145)
also contains `pct_chg`: a forward-adjusted request for `pct_chg` — a
field outside the spec's six-field adjustable subset — comes back
under the suffixed canonical name `pct_chg_qfq`. -/
theorem pct_chg_renamed_beyond_spec_subset :
    fetcherFetch c8Env =
      some [(Value.str "A", Value.str "20240101", "pct_chg_qfq",
        Value.num 1)] ∧
    "pct_chg" ∉ adjustableSubsetSpec :=
  ⟨rfl, by decide⟩

/-- C8 (amended): with a qfq/hfq adjustment the daily branch suffixes
exactly the members of the code's seven-field target set — the spec's
six adjustable fields plus `pct_chg` — and leaves every other column
name unchanged: each surviving cell `(c, v)` of a fetched record
reaches the melted output under the name `c ++ "_" ++ adj` when `c` is
a target column, and under `c` itself otherwise. -/
theorem adj_rename_seven_fields (env : FetchEnv) (code : String)
    (q : FQuery) (a : String) (ha : adjSuffix q = some a) (rec : Row)
    (hrec : rec ∈ frameRecords (env.dailyResp code q)) (c : String)
    (v : Value) (hcv : (c, v) ∈ rec) (hc1 : c ≠ "ts_code")
    (hc2 : c ≠ "trade_date") (out : List LongRow)
    (hout : dailyLongFor env code q = .ok out) :
    (∃ tc td, (tc, td,
      (if c ∈ targetColsAdj then c ++ "_" ++ a else c), v) ∈ out) ∧
    (∀ x, x ∈ targetColsAdj ↔
      x ∈ adjustableSubsetSpec ∨ x = "pct_chg") := by
  constructor
  · unfold dailyLongFor at hout
    split at hout
    · have hout2 :
          (((frameRecords (env.dailyResp code q)).map (meltRec q)).flatten)
            = out := by
        injection hout
      subst hout2
      refine ⟨(getCol rec "ts_code").getD Value.null,
        (getCol rec "trade_date").getD Value.null, ?_⟩
      apply List.mem_flatten.mpr
      refine ⟨meltRec q rec, List.mem_map_of_mem _ hrec, ?_⟩
      have hfilter : (c, v) ∈ rec.filter
          (fun p => p.1 != "ts_code" && p.1 != "trade_date") :=
        List.mem_filter.mpr ⟨hcv, by simp [hc1, hc2]⟩
      have hmem := List.mem_map_of_mem
        (fun p => ((getCol rec "ts_code").getD Value.null,
          (getCol rec "trade_date").getD Value.null,
          applyAdj q p.1, p.2)) hfilter
      have hname : applyAdj q c =
          if c ∈ targetColsAdj then c ++ "_" ++ a else c := by
        unfold applyAdj renameColAdj
        rw [ha]
      rw [← hname]
      exact hmem
    · cases hout
  · intro x
    simp only [targetColsAdj, adjustableSubsetSpec, List.mem_cons,
      List.not_mem_nil, or_false]
    tauto

/-- `adj_rename_seven_fields` on the spec's own scenario: the
forward-adjusted `{open, close}` request yields the suffixed
canonical name for `open`. -/
theorem adj_rename_seven_fields_witness :
    (∃ tc td, (tc, td,
      (if "open" ∈ targetColsAdj then "open" ++ "_" ++ "qfq"
        else "open"), Value.num 10) ∈ c8OutOC) ∧
    (∀ x, x ∈ targetColsAdj ↔
      x ∈ adjustableSubsetSpec ∨ x = "pct_chg") :=
  adj_rename_seven_fields c8EnvOC "A" c8QueryOC "qfq" rfl c8RecOC
    (by decide) "open" (Value.num 10) (by decide) (by decide)
    (by decide) c8OutOC rfl

end StockInfo
